import Mathlib

/-! Enigma machine (`enigmacli.go`): embedding and verified properties.

The Go program is embedded shallowly:

* a Go `map[K]V` is the list of its entries (distinct keys, insertion order);
  `m[k]` on a missing key yields the zero value, `v, ok := m[k]` is `goLookup`;
* a Go `int` is a 64-bit two's-complement integer: it is an `Int`, and every
  `+` / `-` of the source is followed by `wrap64`;
* a `rune` is a `Char`, a `string` that is ranged over is the list of its runes;
* `for key, value := range m` visits the entries of `m` in an order the language
  leaves unspecified: the order of each such loop is supplied by a scan schedule
  (`ScanOrder`), the `k`-th map loop executed using `scan k`;
* a run-time panic of the loader is the `Except.error` result.
-/

set_option linter.unusedVariables false
set_option maxRecDepth 100000

namespace Enigma

/-! ## Go primitives -/

/-- Two's-complement wrap-around of a 64-bit signed Go `int`. -/
def wrap64 (x : Int) : Int := (x + 9223372036854775808) % 18446744073709551616 - 9223372036854775808

/-- The entries of a Go map. -/
abbrev GoMap (K V : Type) := List (K × V)

/-- The comma-ok lookup `v, ok := m[k]`. -/
def goLookup {K V : Type} [DecidableEq K] : GoMap K V → K → Option V
  | [], _ => none
  | (k', v) :: rest, k => if k' = k then some v else goLookup rest k

/-- The plain index expression `m[k]` of an `int`-valued map: zero on a missing key. -/
def goIndexInt {K : Type} [DecidableEq K] (m : GoMap K Int) (k : K) : Int :=
  match goLookup m k with
  | some v => v
  | none => 0

/-- The plain index expression `m[k]` of a `rune`-valued map: rune 0 on a missing key. -/
def goIndexRune {K : Type} [DecidableEq K] (m : GoMap K Char) (k : K) : Char :=
  match goLookup m k with
  | some v => v
  | none => Char.ofNat 0

/-- The assignment `m[k] = v`: overwrite the entry of `k`, or add one. -/
def goInsert {K V : Type} [DecidableEq K] : GoMap K V → K → V → GoMap K V
  | [], k, v => [(k, v)]
  | (k', v') :: rest, k, v =>
    if k' = k then (k, v) :: rest else (k', v') :: goInsert rest k v

/-- The `mod` of the source: Go's truncated `%`, corrected to the sign of the modulus. -/
def mod (d m : Int) : Int :=
  let res := Int.tmod d m
  if (res < 0 ∧ m > 0) ∨ (res > 0 ∧ m < 0) then wrap64 (res + m) else res

/-! ## Letter tables -/

/-- The function `makeLetterLookup`: the global `letterLookup` after the 26 assignments. -/
def makeLetterLookup : GoMap Char Int :=
  let letterLookup : GoMap Char Int := []
  let letterLookup := goInsert letterLookup 'A' 0
  let letterLookup := goInsert letterLookup 'B' 1
  let letterLookup := goInsert letterLookup 'C' 2
  let letterLookup := goInsert letterLookup 'D' 3
  let letterLookup := goInsert letterLookup 'E' 4
  let letterLookup := goInsert letterLookup 'F' 5
  let letterLookup := goInsert letterLookup 'G' 6
  let letterLookup := goInsert letterLookup 'H' 7
  let letterLookup := goInsert letterLookup 'I' 8
  let letterLookup := goInsert letterLookup 'J' 9
  let letterLookup := goInsert letterLookup 'K' 10
  let letterLookup := goInsert letterLookup 'L' 11
  let letterLookup := goInsert letterLookup 'M' 12
  let letterLookup := goInsert letterLookup 'N' 13
  let letterLookup := goInsert letterLookup 'O' 14
  let letterLookup := goInsert letterLookup 'P' 15
  let letterLookup := goInsert letterLookup 'Q' 16
  let letterLookup := goInsert letterLookup 'R' 17
  let letterLookup := goInsert letterLookup 'S' 18
  let letterLookup := goInsert letterLookup 'T' 19
  let letterLookup := goInsert letterLookup 'U' 20
  let letterLookup := goInsert letterLookup 'V' 21
  let letterLookup := goInsert letterLookup 'W' 22
  let letterLookup := goInsert letterLookup 'X' 23
  let letterLookup := goInsert letterLookup 'Y' 24
  let letterLookup := goInsert letterLookup 'Z' 25
  letterLookup

/-- The function `makeReverseLetterLookup`: the global `reverseLetterLookup` after the 26 assignments. -/
def makeReverseLetterLookup : GoMap Int Char :=
  let reverseLetterLookup : GoMap Int Char := []
  let reverseLetterLookup := goInsert reverseLetterLookup 0 'A'
  let reverseLetterLookup := goInsert reverseLetterLookup 1 'B'
  let reverseLetterLookup := goInsert reverseLetterLookup 2 'C'
  let reverseLetterLookup := goInsert reverseLetterLookup 3 'D'
  let reverseLetterLookup := goInsert reverseLetterLookup 4 'E'
  let reverseLetterLookup := goInsert reverseLetterLookup 5 'F'
  let reverseLetterLookup := goInsert reverseLetterLookup 6 'G'
  let reverseLetterLookup := goInsert reverseLetterLookup 7 'H'
  let reverseLetterLookup := goInsert reverseLetterLookup 8 'I'
  let reverseLetterLookup := goInsert reverseLetterLookup 9 'J'
  let reverseLetterLookup := goInsert reverseLetterLookup 10 'K'
  let reverseLetterLookup := goInsert reverseLetterLookup 11 'L'
  let reverseLetterLookup := goInsert reverseLetterLookup 12 'M'
  let reverseLetterLookup := goInsert reverseLetterLookup 13 'N'
  let reverseLetterLookup := goInsert reverseLetterLookup 14 'O'
  let reverseLetterLookup := goInsert reverseLetterLookup 15 'P'
  let reverseLetterLookup := goInsert reverseLetterLookup 16 'Q'
  let reverseLetterLookup := goInsert reverseLetterLookup 17 'R'
  let reverseLetterLookup := goInsert reverseLetterLookup 18 'S'
  let reverseLetterLookup := goInsert reverseLetterLookup 19 'T'
  let reverseLetterLookup := goInsert reverseLetterLookup 20 'U'
  let reverseLetterLookup := goInsert reverseLetterLookup 21 'V'
  let reverseLetterLookup := goInsert reverseLetterLookup 22 'W'
  let reverseLetterLookup := goInsert reverseLetterLookup 23 'X'
  let reverseLetterLookup := goInsert reverseLetterLookup 24 'Y'
  let reverseLetterLookup := goInsert reverseLetterLookup 25 'Z'
  reverseLetterLookup

/-- The global `letterLookup`, as `loadSettingsFromBytes` leaves it. -/
def letterLookup : GoMap Char Int := makeLetterLookup

/-- The global `reverseLetterLookup`, as `loadSettingsFromBytes` leaves it. -/
def reverseLetterLookup : GoMap Int Char := makeReverseLetterLookup

/-! ## Rotor and reflector -/

/-- The order in which the `k`-th executed `range` loop over a map visits its entries. -/
abbrev ScanOrder := Nat → GoMap Int Int → List (Int × Int)

/-- A scan schedule is legitimate when every loop visits each entry exactly once. -/
def ScanOrder.Legit (scan : ScanOrder) : Prop := ∀ k m, (scan k m).Perm m

/-- The schedule that visits the entries in insertion order. -/
def insertionScan : ScanOrder := fun _ m => m

/-- The schedule left after `n` map loops have been executed. -/
def ScanOrder.after (scan : ScanOrder) (n : Nat) : ScanOrder := fun k => scan (n + k)

/-- The `Rotor` struct. -/
structure Rotor where
  Number : Int
  Position : Int
  TurnPosition : Int
  Map : GoMap Int Int
  deriving DecidableEq, Repr

/-- The `Reflector` struct. -/
structure Reflector where
  Letter : String
  Map : GoMap Int Int
  deriving DecidableEq, Repr

/-- The `MachineState` struct; `Rotors0`, `Rotors1`, `Rotors2` are `Rotors[0..2]`. -/
structure MachineState where
  Rotors0 : Rotor
  Rotors1 : Rotor
  Rotors2 : Rotor
  Reflector : Reflector
  Plugs : GoMap Char Char
  deriving DecidableEq, Repr

/-- The method `Rotor.EncryptForward`. -/
def Rotor.EncryptForward (r : Rotor) (input : Int) : Int :=
  let i := mod (wrap64 (input + r.Position)) 26
  let i := goIndexInt r.Map i
  mod (wrap64 (i - r.Position)) 26

/-- The method `Rotor.EncryptBackward`, its `range r.Map` loop visiting the entries as `order` lists them:
the first visited entry whose value is `i` replaces `i` by its key and ends the loop. -/
def Rotor.EncryptBackward (r : Rotor) (order : List (Int × Int)) (input : Int) : Int :=
  let i := mod (wrap64 (input + r.Position)) 26
  let i := match order.find? (fun kv => decide (i = kv.2)) with
    | some kv => kv.1
    | none => i
  mod (wrap64 (i - r.Position)) 26

/-- The loop over `mapString` that assigns `r.Map[i] = letterLookup[char]`, shared by both
`LoadMap` methods, started at index `i`. -/
def loadMapLoop : GoMap Int Int → Int → List Char → GoMap Int Int
  | m, _, [] => m
  | m, i, char :: rest => loadMapLoop (goInsert m i (goIndexInt letterLookup char)) (i + 1) rest

/-- The method `Rotor.LoadMap`. -/
def Rotor.LoadMap (r : Rotor) : Rotor :=
  let r := { r with Map := [] }
  let (mapString, r) :=
    if r.Number = 1 then
      ("EKMFLGDQVZNTOWYHXUSPAIBRCJ", { r with TurnPosition := goIndexInt letterLookup 'R' })
    else if r.Number = 2 then
      ("AJDKSIRUXBLHWTMCQGZNPYFVOE", { r with TurnPosition := goIndexInt letterLookup 'F' })
    else if r.Number = 3 then
      ("BDFHJLCPRTXVZNYEIWGAKMUSQO", { r with TurnPosition := goIndexInt letterLookup 'W' })
    else if r.Number = 4 then
      ("ESOVPZJAYQUIRHXLNFTGKDCMWB", { r with TurnPosition := goIndexInt letterLookup 'K' })
    else if r.Number = 5 then
      ("VZBRGITYUPSDNHLXAWMJQOFECK", { r with TurnPosition := goIndexInt letterLookup 'A' })
    else ("", r)
  { r with Map := loadMapLoop r.Map 0 mapString.toList }

/-- The method `Reflector.LoadMap`. -/
def Reflector.LoadMap (r : Reflector) : Reflector :=
  let r := { r with Map := [] }
  let mapString :=
    if r.Letter = "A" then "EJMZALYXVBWFCRQUONTSPIKHGD"
    else if r.Letter = "B" then "YRUHQSLDPXNGOKMIEBFZCWVJAT"
    else if r.Letter = "C" then "FVPJIAOYEDRZXWGCTKUQSBNMHL"
    else ""
  { r with Map := loadMapLoop r.Map 0 mapString.toList }

/-! ## The machine -/

/-- The plug-board step of `Encrypt`: `newLetter, hasPlug := machine.Plugs[letter]`, the letter
being replaced only when it has a plug. -/
def plugSwap (plugs : GoMap Char Char) (letter : Char) : Char :=
  match goLookup plugs letter with
  | some newLetter => newLetter
  | none => letter

/-- The rotor rotation at the end of the loop body of `Encrypt`. -/
def rotate (machine : MachineState) : MachineState :=
  let machine := { machine with
    Rotors0 := { machine.Rotors0 with Position := mod (wrap64 (machine.Rotors0.Position + 1)) 26 } }
  if machine.Rotors0.Position = machine.Rotors0.TurnPosition then
    let machine := { machine with
      Rotors1 := { machine.Rotors1 with Position := mod (wrap64 (machine.Rotors1.Position + 1)) 26 } }
    if machine.Rotors1.Position = machine.Rotors1.TurnPosition then
      { machine with
        Rotors2 := { machine.Rotors2 with Position := mod (wrap64 (machine.Rotors2.Position + 1)) 26 } }
    else machine
  else machine

/-- The path of one valid letter through plug board, rotors, reflector, rotors and plug board
(the loop body of `Encrypt` between the validity check and the rotation); the three backward
scans are the map loops number `k`, `k + 1` and `k + 2`. -/
def encipher (scan : ScanOrder) (k : Nat) (machine : MachineState) (letter : Char) : Char :=
  let letter := plugSwap machine.Plugs letter
  let i := goIndexInt letterLookup letter
  let i := machine.Rotors0.EncryptForward i
  let i := machine.Rotors1.EncryptForward i
  let i := machine.Rotors2.EncryptForward i
  let i := goIndexInt machine.Reflector.Map i
  let i := machine.Rotors2.EncryptBackward (scan k machine.Rotors2.Map) i
  let i := machine.Rotors1.EncryptBackward (scan (k + 1) machine.Rotors1.Map) i
  let i := machine.Rotors0.EncryptBackward (scan (k + 2) machine.Rotors0.Map) i
  let letter := goIndexRune reverseLetterLookup i
  plugSwap machine.Plugs letter

/-- The variables the loop of `Encrypt` carries: the cipher text so far, the machine, and the
number of map loops executed so far. -/
structure LoopState where
  cipher : List Char
  machine : MachineState
  loops : Nat

/-- One iteration of the loop of `Encrypt`. -/
def encryptStep (scan : ScanOrder) (st : LoopState) (letter : Char) : LoopState :=
  match goLookup letterLookup letter with
  | none => st
  | some _ =>
    { cipher := st.cipher ++ [encipher scan st.loops st.machine letter]
      machine := rotate st.machine
      loops := st.loops + 3 }

/-- The method `MachineState.Encrypt`: the cipher text returned and the machine as the call leaves it. -/
def MachineState.Encrypt (scan : ScanOrder) (machine : MachineState) (message : List Char) :
    List Char × MachineState :=
  let st := message.foldl (encryptStep scan) { cipher := [], machine := machine, loops := 0 }
  (st.cipher, st.machine)

/-! ## The loader -/

/-- The `rotorSetting` struct. -/
structure rotorSetting where
  Number : Int
  Position : Int
  deriving DecidableEq, Repr

/-- The `setting` struct, as `json.Unmarshal` fills it; `Rotors0..2` are `Rotors[0..2]`. -/
structure setting where
  Rotors0 : rotorSetting
  Rotors1 : rotorSetting
  Rotors2 : rotorSetting
  Reflector : String
  Plugs : List String
  deriving DecidableEq, Repr

/-- The run-time panics of the loader. -/
inductive GoPanic where
  | indexOutOfRange
  deriving DecidableEq, Repr

/-- The loop of `loadSettingsFromBytes` that populates `ms.Plugs`; indexing the runes of a plug
string beyond its length panics. -/
def loadPlugs : GoMap Char Char → List String → Except GoPanic (GoMap Char Char)
  | plugs, [] => .ok plugs
  | plugs, plug :: rest =>
    match plug.toList with
    | firstLetter :: secondLetter :: _ =>
      loadPlugs (goInsert (goInsert plugs firstLetter secondLetter) secondLetter firstLetter) rest
    | _ => .error .indexOutOfRange

/-- The rotor that `loadSettingsFromBytes` builds from one rotor setting. -/
def loadRotor (rotor : rotorSetting) : Rotor :=
  Rotor.LoadMap { Number := rotor.Number, Position := wrap64 (rotor.Position - 1),
                  TurnPosition := 0, Map := [] }

/-- The function `loadSettingsFromBytes`, from the unmarshalled `setting` on. -/
def loadSettingsFromBytes (s : setting) : Except GoPanic MachineState :=
  match loadPlugs [] s.Plugs with
  | .error e => .error e
  | .ok plugs =>
    .ok { Rotors0 := loadRotor s.Rotors0
          Rotors1 := loadRotor s.Rotors1
          Rotors2 := loadRotor s.Rotors2
          Reflector := Reflector.LoadMap { Letter := s.Reflector, Map := [] }
          Plugs := plugs }

/-! ## Specification vocabulary -/

/-- The 26 positions `0..25`. -/
def positions : List Int := (List.range 26).map Int.ofNat

/-- A wiring table whose keys are exactly `0..25` (in this order) and whose values are a
rearrangement of `0..25`. -/
def IsPermutation26 (m : GoMap Int Int) : Prop :=
  m.map Prod.fst = positions ∧ (m.map Prod.snd).Perm positions

instance (m : GoMap Int Int) : Decidable (IsPermutation26 m) := by
  unfold IsPermutation26; infer_instance

/-- The valid letters `A..Z`. -/
def isLetter (c : Char) : Prop := 65 ≤ c.toNat ∧ c.toNat ≤ 90

instance (c : Char) : Decidable (isLetter c) := by
  unfold isLetter; infer_instance

/-- A plug pair of two uppercase letters. -/
def ValidPlug (plug : String) : Prop :=
  plug.toList.length = 2 ∧ ∀ c ∈ plug.toList, isLetter c

instance (plug : String) : Decidable (ValidPlug plug) := by
  unfold ValidPlug; infer_instance

/-- A valid rotor entry: number in `1..5`, position in `1..26`. -/
def ValidRotorSetting (rotor : rotorSetting) : Prop :=
  (1 ≤ rotor.Number ∧ rotor.Number ≤ 5) ∧ (1 ≤ rotor.Position ∧ rotor.Position ≤ 26)

instance (rotor : rotorSetting) : Decidable (ValidRotorSetting rotor) := by
  unfold ValidRotorSetting; infer_instance

/-- No letter is used by two pairs of the list. -/
def PlugsDisjoint (plugs : List String) : Prop :=
  plugs.Pairwise (fun p q => ∀ c ∈ p.toList, c ∉ q.toList)

instance (plugs : List String) : Decidable (PlugsDisjoint plugs) := by
  unfold PlugsDisjoint; infer_instance

/-- A valid configuration: rotor numbers in `1..5`, positions in `1..26`, reflector `A`, `B`
or `C`, plug pairs of uppercase letters, no letter used in two pairs. -/
def ValidConfig (s : setting) : Prop :=
  ValidRotorSetting s.Rotors0 ∧ ValidRotorSetting s.Rotors1 ∧ ValidRotorSetting s.Rotors2 ∧
  (s.Reflector = "A" ∨ s.Reflector = "B" ∨ s.Reflector = "C") ∧
  (∀ plug ∈ s.Plugs, ValidPlug plug) ∧ PlugsDisjoint s.Plugs

instance (s : setting) : Decidable (ValidConfig s) := by
  unfold ValidConfig; infer_instance

/-- Rotors I, II, III at positions 1, 1, 1 (offsets 0), reflector B, no plugs. -/
def demoSetting : setting :=
  { Rotors0 := { Number := 1, Position := 1 }
    Rotors1 := { Number := 2, Position := 1 }
    Rotors2 := { Number := 3, Position := 1 }
    Reflector := "B"
    Plugs := [] }

/-- The machine `loadSettingsFromBytes` builds from `demoSetting`. -/
def demoMachine : MachineState :=
  { Rotors0 := loadRotor demoSetting.Rotors0
    Rotors1 := loadRotor demoSetting.Rotors1
    Rotors2 := loadRotor demoSetting.Rotors2
    Reflector := Reflector.LoadMap { Letter := "B", Map := [] }
    Plugs := [] }

/-! ## Auxiliary definitions of the proofs -/

/-- Offsets for which `input + Position` and `i - Position` cannot overflow when the other
operand is in `0..25`. -/
def OffsetSafe (p : Int) : Prop := -9223372036854775782 ≤ p ∧ p ≤ 9223372036854775782

/-- The letters `A..Z` in order. -/
def alphabet : List Char := "ABCDEFGHIJKLMNOPQRSTUVWXYZ".toList

/-- A plug map is symmetric and all its keys are letters. -/
def PlugsSymmetric (plugs : GoMap Char Char) : Prop :=
  (∀ a b, goLookup plugs a = some b → goLookup plugs b = some a) ∧
  (∀ a b, goLookup plugs a = some b → isLetter a)

/-- The number of valid letters `A..Z` of a message. -/
def letterCount (message : List Char) : Nat := message.countP (fun c => decide (isLetter c))

/-- The message with every character outside `A..Z` removed. -/
def lettersOnly (message : List Char) : List Char := message.filter (fun c => decide (isLetter c))

/-- The number of times rotor 1 is advanced while rotor 0, with notch `n1`, takes `k` steps
from offset `p1`. -/
def carries (n1 p1 : Int) : Nat → Nat
  | 0 => 0
  | k + 1 => (if (p1 + 1) % 26 = n1 then 1 else 0) + carries n1 ((p1 + 1) % 26) k

/-- What a machine loaded from a valid configuration satisfies, and every rotation keeps:
permutation wirings, offsets that cannot overflow, an involutive reflector without fixed point
and a symmetric plug board over the letters. -/
structure WellFormed (machine : MachineState) : Prop where
  map0 : IsPermutation26 machine.Rotors0.Map
  map1 : IsPermutation26 machine.Rotors1.Map
  map2 : IsPermutation26 machine.Rotors2.Map
  pos0 : OffsetSafe machine.Rotors0.Position
  pos1 : OffsetSafe machine.Rotors1.Position
  pos2 : OffsetSafe machine.Rotors2.Position
  reflector : IsPermutation26 machine.Reflector.Map
  involution : ∀ x : Int, 0 ≤ x ∧ x ≤ 25 →
    goIndexInt machine.Reflector.Map x ≠ x ∧
    goIndexInt machine.Reflector.Map (goIndexInt machine.Reflector.Map x) = x
  plugs : PlugsSymmetric machine.Plugs

/-- The index that leaves the rotors on the way back, for the index `i` that enters them. -/
def rotorPath (scan : ScanOrder) (k : Nat) (machine : MachineState) (i : Int) : Int :=
  machine.Rotors0.EncryptBackward (scan (k + 2) machine.Rotors0.Map)
    (machine.Rotors1.EncryptBackward (scan (k + 1) machine.Rotors1.Map)
      (machine.Rotors2.EncryptBackward (scan k machine.Rotors2.Map)
        (goIndexInt machine.Reflector.Map
          (machine.Rotors2.EncryptForward
            (machine.Rotors1.EncryptForward (machine.Rotors0.EncryptForward i))))))

/-- The plug map after one more plug string, when the string has two characters or more. -/
def addPlug (plugs : GoMap Char Char) (plug : String) : GoMap Char Char :=
  goInsert (goInsert plugs (plug.toList.getD 0 'A') (plug.toList.getD 1 'A'))
    (plug.toList.getD 1 'A') (plug.toList.getD 0 'A')

/-- The defects a configuration error is claimed for: a rotor identifier outside `1..5`, a
reflector identifier other than `A`, `B`, `C`, a plug pair that is not exactly two letters, a
letter in more than one pair. -/
def Malformed (s : setting) : Prop :=
  ¬ (1 ≤ s.Rotors0.Number ∧ s.Rotors0.Number ≤ 5) ∨
  ¬ (1 ≤ s.Rotors1.Number ∧ s.Rotors1.Number ≤ 5) ∨
  ¬ (1 ≤ s.Rotors2.Number ∧ s.Rotors2.Number ≤ 5) ∨
  ¬ (s.Reflector = "A" ∨ s.Reflector = "B" ∨ s.Reflector = "C") ∨
  (∃ plug ∈ s.Plugs, ¬ ValidPlug plug) ∨
  ¬ PlugsDisjoint s.Plugs

instance (s : setting) : Decidable (Malformed s) := by
  unfold Malformed; infer_instance

/-- Rotor identifier 9 in the first slot. -/
def badRotorSetting : setting := { demoSetting with Rotors0 := { Number := 9, Position := 1 } }

/-- Reflector identifier `D`. -/
def badReflectorSetting : setting := { demoSetting with Reflector := "D" }

/-- A plug string of three letters. -/
def longPlugSetting : setting := { demoSetting with Plugs := ["ABC"] }

/-- The letter `A` in two pairs. -/
def reusedLetterSetting : setting := { demoSetting with Plugs := ["AB", "AC"] }

/-- Rotors I, II, III at offsets 16, 4, 0: the next letter carries into rotors II and III. -/
def carryMachine : MachineState :=
  { demoMachine with
    Rotors0 := loadRotor { Number := 1, Position := 17 }
    Rotors1 := loadRotor { Number := 2, Position := 5 } }

/-- The configuration `demoSetting` with the single plug pair `AB`. -/
def abSetting : setting := { demoSetting with Plugs := ["AB"] }

/-- An offset in `0..25`. -/
def InRange26 (p : Int) : Prop := 0 ≤ p ∧ p ≤ 25

instance (p : Int) : Decidable (InRange26 p) := by
  unfold InRange26; infer_instance

/-- Two machine states that differ at most in the three rotor offsets. -/
def SameButPositions (a b : MachineState) : Prop :=
  (a.Rotors0.Number = b.Rotors0.Number ∧ a.Rotors0.TurnPosition = b.Rotors0.TurnPosition ∧
    a.Rotors0.Map = b.Rotors0.Map) ∧
  (a.Rotors1.Number = b.Rotors1.Number ∧ a.Rotors1.TurnPosition = b.Rotors1.TurnPosition ∧
    a.Rotors1.Map = b.Rotors1.Map) ∧
  (a.Rotors2.Number = b.Rotors2.Number ∧ a.Rotors2.TurnPosition = b.Rotors2.TurnPosition ∧
    a.Rotors2.Map = b.Rotors2.Map) ∧
  a.Reflector = b.Reflector ∧ a.Plugs = b.Plugs

/-! ## The loop of `Encrypt` with every table lookup checked -/

/-- The method `Rotor.EncryptForward`, the lookup `r.Map[i]` being checked: `none` when the
key is not in the wiring. -/
def Rotor.EncryptForwardChecked (r : Rotor) (input : Int) : Option Int :=
  let i := mod (wrap64 (input + r.Position)) 26
  match goLookup r.Map i with
  | some i => some (mod (wrap64 (i - r.Position)) 26)
  | none => none

/-- The method `Rotor.EncryptBackward`, the scan being checked: `none` when no visited entry
has the value looked for. -/
def Rotor.EncryptBackwardChecked (r : Rotor) (order : List (Int × Int)) (input : Int) :
    Option Int :=
  let i := mod (wrap64 (input + r.Position)) 26
  match order.find? (fun kv => decide (i = kv.2)) with
  | some kv => some (mod (wrap64 (kv.1 - r.Position)) 26)
  | none => none

/-- The path of one letter as in `encipher`, every table lookup (`letterLookup`, the rotor
wirings forward and backward, the reflector map, `reverseLetterLookup`) being checked: `none`
as soon as one of them misses its key. -/
def encipherChecked (scan : ScanOrder) (k : Nat) (machine : MachineState) (letter : Char) :
    Option Char :=
  let letter := plugSwap machine.Plugs letter
  (goLookup letterLookup letter).bind fun i =>
  (machine.Rotors0.EncryptForwardChecked i).bind fun i =>
  (machine.Rotors1.EncryptForwardChecked i).bind fun i =>
  (machine.Rotors2.EncryptForwardChecked i).bind fun i =>
  (goLookup machine.Reflector.Map i).bind fun i =>
  (machine.Rotors2.EncryptBackwardChecked (scan k machine.Rotors2.Map) i).bind fun i =>
  (machine.Rotors1.EncryptBackwardChecked (scan (k + 1) machine.Rotors1.Map) i).bind fun i =>
  (machine.Rotors0.EncryptBackwardChecked (scan (k + 2) machine.Rotors0.Map) i).bind fun i =>
  (goLookup reverseLetterLookup i).bind fun letter =>
  some (plugSwap machine.Plugs letter)

/-- The method `MachineState.Encrypt` with every table lookup checked: `none` when a lookup
misses its key, otherwise the cipher text and the machine the call leaves. -/
def MachineState.EncryptChecked (scan : ScanOrder) (machine : MachineState) :
    List Char → Option (List Char × MachineState)
  | [] => some ([], machine)
  | letter :: rest =>
    match goLookup letterLookup letter with
    | none => MachineState.EncryptChecked scan machine rest
    | some _ =>
      match encipherChecked scan 0 machine letter with
      | none => none
      | some out =>
        match MachineState.EncryptChecked (scan.after 3) (rotate machine) rest with
        | none => none
        | some (cipher, final) => some (out :: cipher, final)

/-- A configuration as in `ValidConfig`, except that a letter may be used by several plug
pairs. -/
def ValidConfigLoose (s : setting) : Prop :=
  ValidRotorSetting s.Rotors0 ∧ ValidRotorSetting s.Rotors1 ∧ ValidRotorSetting s.Rotors2 ∧
  (s.Reflector = "A" ∨ s.Reflector = "B" ∨ s.Reflector = "C") ∧
  (∀ plug ∈ s.Plugs, ValidPlug plug)

instance (s : setting) : Decidable (ValidConfigLoose s) := by
  unfold ValidConfigLoose; infer_instance

/-- A machine whose four wirings are permutations of `0..25` and whose plug map has only
letters as values. -/
structure Operable (machine : MachineState) : Prop where
  map0 : IsPermutation26 machine.Rotors0.Map
  map1 : IsPermutation26 machine.Rotors1.Map
  map2 : IsPermutation26 machine.Rotors2.Map
  reflector : IsPermutation26 machine.Reflector.Map
  plugs : ∀ a b, goLookup machine.Plugs a = some b → isLetter b

/-- The machine `loadSettingsFromBytes` builds from `reusedLetterSetting`. -/
def reusedLetterMachine : MachineState :=
  { demoMachine with Plugs := [('A', 'C'), ('B', 'A'), ('C', 'A')] }

/-- The machine with its plug map replaced. -/
def withPlugs (machine : MachineState) (plugs : GoMap Char Char) : MachineState :=
  { machine with Plugs := plugs }

/-- The machine `loadSettingsFromBytes` builds from `abSetting`. -/
def abMachine : MachineState := withPlugs demoMachine [('A', 'B'), ('B', 'A')]

/-- A wiring table as `LoadMap` leaves it: a permutation of `0..25`, or empty (unknown
identifier). -/
def LoadedWiring (m : GoMap Int Int) : Prop := IsPermutation26 m ∨ m = []

/-- A configured position whose offset `Position - 1` cannot overflow in the arithmetic of
`EncryptForward`, `EncryptBackward` and the rotation: `-2^63 + 27 ≤ p ≤ 2^63 - 25`. -/
def PositionSafe (p : Int) : Prop := -9223372036854775781 ≤ p ∧ p ≤ 9223372036854775783

instance (p : Int) : Decidable (PositionSafe p) := by
  unfold PositionSafe; infer_instance

/-- Two machine states with the same loaded tables, notches and plugs, whose offsets are
pairwise congruent modulo 26 and cannot overflow. -/
structure Congruent (a b : MachineState) : Prop where
  same : SameButPositions a b
  cong0 : a.Rotors0.Position % 26 = b.Rotors0.Position % 26
  cong1 : a.Rotors1.Position % 26 = b.Rotors1.Position % 26
  cong2 : a.Rotors2.Position % 26 = b.Rotors2.Position % 26
  safe0 : OffsetSafe a.Rotors0.Position ∧ OffsetSafe b.Rotors0.Position
  safe1 : OffsetSafe a.Rotors1.Position ∧ OffsetSafe b.Rotors1.Position
  safe2 : OffsetSafe a.Rotors2.Position ∧ OffsetSafe b.Rotors2.Position
  wiring0 : LoadedWiring a.Rotors0.Map
  wiring1 : LoadedWiring a.Rotors1.Map
  wiring2 : LoadedWiring a.Rotors2.Map
  reflector : LoadedWiring a.Reflector.Map

/-- Positions 0, 27, 1: the stored offsets are -1, 26, 0. -/
def wrappedSetting : setting :=
  { demoSetting with
    Rotors0 := { Number := 1, Position := 0 }
    Rotors1 := { Number := 2, Position := 27 } }

/-- Positions 26, 1, 27, congruent to those of `wrappedSetting`: the stored offsets are 25, 0,
26. -/
def wrappedSetting' : setting :=
  { demoSetting with
    Rotors0 := { Number := 1, Position := 26 }
    Rotors2 := { Number := 3, Position := 27 } }

/-- The machine `loadSettingsFromBytes` builds from `wrappedSetting`. -/
def wrappedMachine : MachineState :=
  { demoMachine with
    Rotors0 := loadRotor wrappedSetting.Rotors0
    Rotors1 := loadRotor wrappedSetting.Rotors1 }

/-- The machine `loadSettingsFromBytes` builds from `wrappedSetting'`. -/
def wrappedMachine' : MachineState :=
  { demoMachine with
    Rotors0 := loadRotor wrappedSetting'.Rotors0
    Rotors2 := loadRotor wrappedSetting'.Rotors2 }

/-- First position `2^63 - 1`, the largest Go `int`. -/
def hugeSetting : setting :=
  { demoSetting with Rotors0 := { Number := 1, Position := 9223372036854775807 } }

/-- First position `2^63 - 27`, congruent to that of `hugeSetting` modulo 26. -/
def hugeSetting' : setting :=
  { demoSetting with Rotors0 := { Number := 1, Position := 9223372036854775781 } }

/-- The machine `loadSettingsFromBytes` builds from `hugeSetting`. -/
def hugeMachine : MachineState :=
  { demoMachine with Rotors0 := loadRotor hugeSetting.Rotors0 }

/-- The machine `loadSettingsFromBytes` builds from `hugeSetting'`. -/
def hugeMachine' : MachineState :=
  { demoMachine with Rotors0 := loadRotor hugeSetting'.Rotors0 }

/-! ## Arithmetic of `wrap64` and `mod` -/

theorem wrap64_of_range {x : Int} (h1 : -9223372036854775808 ≤ x) (h2 : x < 9223372036854775808) :
    wrap64 x = x := by
  unfold wrap64; omega

theorem wrap64_range (x : Int) :
    -9223372036854775808 ≤ wrap64 x ∧ wrap64 x < 9223372036854775808 := by
  unfold wrap64; omega

theorem tmod26 (d : Int) : Int.tmod d 26 = if 0 ≤ d then d % 26 else -((-d) % 26) := by
  cases d with
  | ofNat n =>
    have h : (0 : Int) ≤ Int.ofNat n := Int.ofNat_nonneg n
    rw [if_pos h]
    exact Int.tmod_eq_emod h (by norm_num)
  | negSucc n =>
    have h : ¬ (0 : Int) ≤ Int.negSucc n := by
      have := Int.negSucc_lt_zero n
      omega
    rw [if_neg h]
    show -((((n + 1) % 26 : Nat)) : Int) = -((-(Int.negSucc n)) % 26)
    rw [Int.neg_negSucc]
    omega

/-- On the modulus 26 the source's `mod` is the mathematical remainder. -/
theorem mod26_eq (d : Int) : mod d 26 = d % 26 := by
  unfold mod
  simp only [tmod26]
  split_ifs with h1 h2 h3
  · exfalso; omega
  · rfl
  · rw [wrap64_of_range (by omega) (by omega)]; omega
  · omega

theorem mod26_range (d : Int) : 0 ≤ mod d 26 ∧ mod d 26 ≤ 25 := by
  rw [mod26_eq]; omega

/-! ## Go maps as entry lists -/

theorem goLookup_goInsert {K V : Type} [DecidableEq K] (m : GoMap K V) (k k' : K) (v : V) :
    goLookup (goInsert m k v) k' = if k = k' then some v else goLookup m k' := by
  induction m with
  | nil => simp [goInsert, goLookup]
  | cons e rest ih =>
    obtain ⟨a, b⟩ := e
    by_cases h : a = k
    · subst h
      by_cases h' : a = k' <;> simp [goInsert, goLookup, h']
    · by_cases h' : a = k'
      · subst h'
        simp [goInsert, goLookup, h, Ne.symm h]
      · simp [goInsert, goLookup, h, h', ih]

theorem mem_of_goLookup {K V : Type} [DecidableEq K] {m : GoMap K V} {k : K} {v : V}
    (h : goLookup m k = some v) : (k, v) ∈ m := by
  induction m with
  | nil => simp [goLookup] at h
  | cons e rest ih =>
    obtain ⟨a, b⟩ := e
    by_cases hk : a = k
    · subst hk
      simp [goLookup] at h
      simp [h]
    · simp [goLookup, hk] at h
      exact List.mem_cons_of_mem _ (ih h)

theorem goLookup_of_mem {K V : Type} [DecidableEq K] {m : GoMap K V} {k : K} {v : V}
    (hnd : (m.map Prod.fst).Nodup) (h : (k, v) ∈ m) : goLookup m k = some v := by
  induction m with
  | nil => simp at h
  | cons e rest ih =>
    obtain ⟨a, b⟩ := e
    simp only [List.map_cons, List.nodup_cons] at hnd
    rcases List.mem_cons.mp h with h | h
    · cases h
      simp [goLookup]
    · have hne : a ≠ k := by
        rintro rfl
        exact hnd.1 (List.mem_map.mpr ⟨(a, v), h, rfl⟩)
      simp [goLookup, hne, ih hnd.2 h]

theorem mem_positions {x : Int} : x ∈ positions ↔ 0 ≤ x ∧ x ≤ 25 := by
  unfold positions
  simp only [List.mem_map, List.mem_range]
  constructor
  · rintro ⟨a, ha, rfl⟩
    simp only [Int.ofNat_eq_coe]
    omega
  · intro h
    exact ⟨x.toNat, by omega, by simp only [Int.ofNat_eq_coe]; omega⟩

theorem nodup_positions : positions.Nodup := by decide

/-! ## Wiring tables that are permutations of `0..25` -/

theorem IsPermutation26.lookup {m : GoMap Int Int} (hm : IsPermutation26 m) {x : Int}
    (hx : 0 ≤ x ∧ x ≤ 25) : ∃ v, goLookup m x = some v ∧ 0 ≤ v ∧ v ≤ 25 := by
  have hk : x ∈ m.map Prod.fst := by rw [hm.1]; exact mem_positions.mpr hx
  obtain ⟨⟨a, v⟩, hmem, ha⟩ := List.mem_map.mp hk
  simp only at ha
  subst ha
  have hnd : (m.map Prod.fst).Nodup := by rw [hm.1]; exact nodup_positions
  have hv : v ∈ positions := hm.2.subset (List.mem_map.mpr ⟨(a, v), hmem, rfl⟩)
  exact ⟨v, goLookup_of_mem hnd hmem, mem_positions.mp hv⟩

theorem IsPermutation26.key_range {m : GoMap Int Int} (hm : IsPermutation26 m) {k v : Int}
    (h : (k, v) ∈ m) : (0 ≤ k ∧ k ≤ 25) ∧ (0 ≤ v ∧ v ≤ 25) := by
  have hk : k ∈ positions := by rw [← hm.1]; exact List.mem_map.mpr ⟨(k, v), h, rfl⟩
  have hv : v ∈ positions := hm.2.subset (List.mem_map.mpr ⟨(k, v), h, rfl⟩)
  exact ⟨mem_positions.mp hk, mem_positions.mp hv⟩

theorem IsPermutation26.entry_unique {m : GoMap Int Int} (hm : IsPermutation26 m)
    {k k' v : Int} (h : (k, v) ∈ m) (h' : (k', v) ∈ m) : k = k' := by
  have hnd : (m.map Prod.snd).Nodup := hm.2.nodup_iff.mpr nodup_positions
  have := List.inj_on_of_nodup_map hnd h h' rfl
  exact congrArg Prod.fst this

theorem IsPermutation26.injective {m : GoMap Int Int} (hm : IsPermutation26 m)
    {k k' v : Int} (h : goLookup m k = some v) (h' : goLookup m k' = some v) : k = k' :=
  hm.entry_unique (mem_of_goLookup h) (mem_of_goLookup h')

theorem IsPermutation26.preimage {m : GoMap Int Int} (hm : IsPermutation26 m) {y : Int}
    (hy : 0 ≤ y ∧ y ≤ 25) : ∃ k, (k, y) ∈ m := by
  have hv : y ∈ m.map Prod.snd := hm.2.symm.subset (mem_positions.mpr hy)
  obtain ⟨⟨k, v⟩, hmem, hv⟩ := List.mem_map.mp hv
  simp only at hv
  subst hv
  exact ⟨k, hmem⟩

/-- Whatever order the entries of a permutation table are visited in, the first entry whose
value is `y` is the only one there is. -/
theorem IsPermutation26.scan_finds {m : GoMap Int Int} (hm : IsPermutation26 m)
    {order : List (Int × Int)} (hord : order.Perm m) {k y : Int} (h : (k, y) ∈ m) :
    order.find? (fun kv => decide (y = kv.2)) = some (k, y) := by
  have hmem : (k, y) ∈ order := hord.symm.subset h
  cases hf : order.find? (fun kv => decide (y = kv.2)) with
  | none =>
    have := List.find?_eq_none.mp hf (k, y) hmem
    simp at this
  | some e =>
    obtain ⟨a, b⟩ := e
    have hb : y = b := by simpa using List.find?_some hf
    subst hb
    have ha : (a, y) ∈ m := hord.subset (List.mem_of_find?_eq_some hf)
    rw [hm.entry_unique ha h]

/-! ## One rotor -/

theorem Rotor.forward_eq (r : Rotor) (hm : IsPermutation26 r.Map) (hp : OffsetSafe r.Position)
    {x : Int} (hx : 0 ≤ x ∧ x ≤ 25) :
    ∃ v, goLookup r.Map ((x + r.Position) % 26) = some v ∧ (0 ≤ v ∧ v ≤ 25) ∧
      r.EncryptForward x = (v - r.Position) % 26 := by
  unfold OffsetSafe at hp
  obtain ⟨v, hv, hr⟩ := hm.lookup (x := (x + r.Position) % 26) (by omega)
  refine ⟨v, hv, hr, ?_⟩
  have h1 : wrap64 (x + r.Position) = x + r.Position :=
    wrap64_of_range (by omega) (by omega)
  have h2 : wrap64 (v - r.Position) = v - r.Position :=
    wrap64_of_range (by omega) (by omega)
  simp only [Rotor.EncryptForward, mod26_eq, goIndexInt, h1, hv, h2]

theorem Rotor.backward_eq (r : Rotor) (hm : IsPermutation26 r.Map) (hp : OffsetSafe r.Position)
    {order : List (Int × Int)} (hord : order.Perm r.Map) {y : Int} (hy : 0 ≤ y ∧ y ≤ 25) :
    ∃ k, goLookup r.Map k = some ((y + r.Position) % 26) ∧ (0 ≤ k ∧ k ≤ 25) ∧
      r.EncryptBackward order y = (k - r.Position) % 26 := by
  unfold OffsetSafe at hp
  obtain ⟨k, hk⟩ := hm.preimage (y := (y + r.Position) % 26) (by omega)
  have hnd : (r.Map.map Prod.fst).Nodup := by rw [hm.1]; exact nodup_positions
  have hkr := (hm.key_range hk).1
  refine ⟨k, goLookup_of_mem hnd hk, hkr, ?_⟩
  have h1 : wrap64 (y + r.Position) = y + r.Position :=
    wrap64_of_range (by omega) (by omega)
  have h2 : wrap64 (k - r.Position) = k - r.Position :=
    wrap64_of_range (by omega) (by omega)
  simp only [Rotor.EncryptBackward, mod26_eq, h1, hm.scan_finds hord hk, h2]

theorem Rotor.forward_range (r : Rotor) (x : Int) :
    0 ≤ r.EncryptForward x ∧ r.EncryptForward x ≤ 25 := mod26_range _

theorem Rotor.backward_range (r : Rotor) (order : List (Int × Int)) (y : Int) :
    0 ≤ r.EncryptBackward order y ∧ r.EncryptBackward order y ≤ 25 := mod26_range _

theorem Rotor.backward_forward (r : Rotor) (hm : IsPermutation26 r.Map)
    (hp : OffsetSafe r.Position) {order : List (Int × Int)} (hord : order.Perm r.Map)
    {x : Int} (hx : 0 ≤ x ∧ x ≤ 25) : r.EncryptBackward order (r.EncryptForward x) = x := by
  obtain ⟨v, hv, hvr, hf⟩ := r.forward_eq hm hp hx
  obtain ⟨k, hk, hkr, hb⟩ := r.backward_eq hm hp hord (r.forward_range x)
  have hback : (r.EncryptForward x + r.Position) % 26 = v := by rw [hf]; omega
  rw [hback] at hk
  have := hm.injective hk hv
  rw [hb, this]
  omega

theorem Rotor.forward_backward (r : Rotor) (hm : IsPermutation26 r.Map)
    (hp : OffsetSafe r.Position) {order : List (Int × Int)} (hord : order.Perm r.Map)
    {y : Int} (hy : 0 ≤ y ∧ y ≤ 25) : r.EncryptForward (r.EncryptBackward order y) = y := by
  obtain ⟨k, hk, hkr, hb⟩ := r.backward_eq hm hp hord hy
  obtain ⟨v, hv, hvr, hf⟩ := r.forward_eq hm hp (r.backward_range order y)
  have hfwd : (r.EncryptBackward order y + r.Position) % 26 = k := by rw [hb]; omega
  rw [hfwd, hk] at hv
  rw [hf, ← Option.some.inj hv]
  omega

/-! ## The loaded tables -/

theorem Rotor.loaded_wiring_eq (r : Rotor) :
    r.LoadMap.Map = (Rotor.LoadMap ⟨r.Number, 0, 0, []⟩).Map := by
  simp only [Rotor.LoadMap]
  split_ifs <;> rfl

theorem Rotor.LoadMap_Position (r : Rotor) : r.LoadMap.Position = r.Position := by
  simp only [Rotor.LoadMap]
  split_ifs <;> rfl

theorem Rotor.LoadMap_Number (r : Rotor) : r.LoadMap.Number = r.Number := by
  simp only [Rotor.LoadMap]
  split_ifs <;> rfl

theorem Reflector.loaded_table_eq (r : Reflector) :
    r.LoadMap.Map = (Reflector.LoadMap ⟨r.Letter, []⟩).Map := rfl

theorem rotor_tables_perm :
    ∀ n ∈ [(1 : Int), 2, 3, 4, 5], IsPermutation26 (Rotor.LoadMap ⟨n, 0, 0, []⟩).Map := by
  decide

theorem Rotor.LoadMap_perm (r : Rotor) (hn : 1 ≤ r.Number ∧ r.Number ≤ 5) :
    IsPermutation26 r.LoadMap.Map := by
  rw [Rotor.loaded_wiring_eq]
  apply rotor_tables_perm
  simp only [List.mem_cons, List.mem_singleton]
  omega

theorem reflector_tables :
    ∀ l ∈ ["A", "B", "C"], IsPermutation26 (Reflector.LoadMap ⟨l, []⟩).Map ∧
      ∀ x ∈ positions,
        goIndexInt (Reflector.LoadMap ⟨l, []⟩).Map x ≠ x ∧
        goIndexInt (Reflector.LoadMap ⟨l, []⟩).Map
          (goIndexInt (Reflector.LoadMap ⟨l, []⟩).Map x) = x := by
  decide

theorem Reflector.LoadMap_spec (r : Reflector)
    (hl : r.Letter = "A" ∨ r.Letter = "B" ∨ r.Letter = "C") :
    IsPermutation26 r.LoadMap.Map ∧
      ∀ x : Int, 0 ≤ x ∧ x ≤ 25 →
        goIndexInt r.LoadMap.Map x ≠ x ∧
        goIndexInt r.LoadMap.Map (goIndexInt r.LoadMap.Map x) = x := by
  rw [Reflector.loaded_table_eq]
  have hmem : r.Letter ∈ ["A", "B", "C"] := by
    simp only [List.mem_cons, List.mem_singleton]
    rcases hl with h | h | h <;> simp [h]
  obtain ⟨h1, h2⟩ := reflector_tables r.Letter hmem
  exact ⟨h1, fun x hx => h2 x (mem_positions.mpr hx)⟩

/-! ## The letter tables -/

theorem mem_alphabet_of_isLetter {c : Char} (h : isLetter c) : c ∈ alphabet := by
  unfold isLetter at h
  have hc : c = Char.ofNat c.toNat := (Char.ofNat_toNat c).symm
  obtain ⟨h1, h2⟩ := h
  generalize c.toNat = n at hc h1 h2
  subst hc
  interval_cases n <;> decide

theorem alphabet_spec :
    ∀ c ∈ alphabet, isLetter c ∧ goLookup letterLookup c = some (goIndexInt letterLookup c) ∧
      goIndexInt letterLookup c ∈ positions ∧
      goIndexRune reverseLetterLookup (goIndexInt letterLookup c) = c := by
  decide

theorem positions_spec :
    ∀ i ∈ positions, goIndexRune reverseLetterLookup i ∈ alphabet ∧
      goIndexInt letterLookup (goIndexRune reverseLetterLookup i) = i := by
  decide

theorem letterLookup_keys : letterLookup.map Prod.fst = alphabet := by decide

theorem isLetter_iff_mem_alphabet {c : Char} : isLetter c ↔ c ∈ alphabet :=
  ⟨mem_alphabet_of_isLetter, fun h => (alphabet_spec c h).1⟩

theorem goLookup_letterLookup_of_isLetter {c : Char} (h : isLetter c) :
    goLookup letterLookup c = some (goIndexInt letterLookup c) :=
  (alphabet_spec c (mem_alphabet_of_isLetter h)).2.1

theorem goLookup_letterLookup_of_not_isLetter {c : Char} (h : ¬ isLetter c) :
    goLookup letterLookup c = none := by
  cases hl : goLookup letterLookup c with
  | none => rfl
  | some v =>
    exfalso
    apply h
    have hmem : c ∈ letterLookup.map Prod.fst := List.mem_map.mpr ⟨(c, v), mem_of_goLookup hl, rfl⟩
    rw [letterLookup_keys] at hmem
    exact (alphabet_spec c hmem).1

theorem index_range {c : Char} (h : isLetter c) :
    0 ≤ goIndexInt letterLookup c ∧ goIndexInt letterLookup c ≤ 25 :=
  mem_positions.mp (alphabet_spec c (mem_alphabet_of_isLetter h)).2.2.1

theorem reverse_index {c : Char} (h : isLetter c) :
    goIndexRune reverseLetterLookup (goIndexInt letterLookup c) = c :=
  (alphabet_spec c (mem_alphabet_of_isLetter h)).2.2.2

theorem isLetter_reverse {i : Int} (h : 0 ≤ i ∧ i ≤ 25) :
    isLetter (goIndexRune reverseLetterLookup i) :=
  isLetter_iff_mem_alphabet.mpr (positions_spec i (mem_positions.mpr h)).1

theorem index_reverse {i : Int} (h : 0 ≤ i ∧ i ≤ 25) :
    goIndexInt letterLookup (goIndexRune reverseLetterLookup i) = i :=
  (positions_spec i (mem_positions.mpr h)).2

/-! ## The plug board -/

theorem PlugsSymmetric.swap_swap {plugs : GoMap Char Char} (h : PlugsSymmetric plugs) (c : Char) :
    plugSwap plugs (plugSwap plugs c) = c := by
  unfold plugSwap
  cases hc : goLookup plugs c with
  | none => simp only [hc]
  | some b => simp only [h.1 c b hc]

theorem PlugsSymmetric.swap_isLetter {plugs : GoMap Char Char} (h : PlugsSymmetric plugs)
    {c : Char} (hc : isLetter c) : isLetter (plugSwap plugs c) := by
  unfold plugSwap
  cases hl : goLookup plugs c with
  | none => exact hc
  | some b => exact h.2 b c (h.1 c b hl)

theorem plugsSymmetric_nil : PlugsSymmetric [] :=
  ⟨fun a b h => by simp [goLookup] at h, fun a b h => by simp [goLookup] at h⟩

theorem plugsSymmetric_insert {plugs : GoMap Char Char} (h : PlugsSymmetric plugs) {x y : Char}
    (hx : isLetter x) (hy : isLetter y) (hxn : goLookup plugs x = none)
    (hyn : goLookup plugs y = none) :
    PlugsSymmetric (goInsert (goInsert plugs x y) y x) := by
  have key : ∀ k, goLookup (goInsert (goInsert plugs x y) y x) k =
      if y = k then some x else if x = k then some y else goLookup plugs k := by
    intro k
    rw [goLookup_goInsert, goLookup_goInsert]
  constructor
  · intro a b hab
    rw [key] at hab ⊢
    by_cases h1 : y = a
    · subst h1
      rw [if_pos rfl] at hab
      cases hab
      by_cases h2 : y = x
      · rw [if_pos h2, h2]
      · rw [if_neg h2, if_pos rfl]
    · rw [if_neg h1] at hab
      by_cases h2 : x = a
      · subst h2
        rw [if_pos rfl] at hab
        cases hab
        rw [if_pos rfl]
      · rw [if_neg h2] at hab
        have hba := h.1 a b hab
        have hyb : y ≠ b := by rintro rfl; rw [hyn] at hba; cases hba
        have hxb : x ≠ b := by rintro rfl; rw [hxn] at hba; cases hba
        rw [if_neg hyb, if_neg hxb]
        exact hba
  · intro a b hab
    rw [key] at hab
    by_cases h1 : y = a
    · exact h1 ▸ hy
    · rw [if_neg h1] at hab
      by_cases h2 : x = a
      · exact h2 ▸ hx
      · rw [if_neg h2] at hab
        exact h.2 a b hab

theorem loadPlugs_symmetric (plugs : List String) :
    ∀ acc : GoMap Char Char, PlugsSymmetric acc → (∀ plug ∈ plugs, ValidPlug plug) →
      PlugsDisjoint plugs → (∀ plug ∈ plugs, ∀ c ∈ plug.toList, goLookup acc c = none) →
      ∃ m, loadPlugs acc plugs = .ok m ∧ PlugsSymmetric m := by
  induction plugs with
  | nil => intro acc h _ _ _; exact ⟨acc, rfl, h⟩
  | cons plug rest ih =>
    intro acc hacc hvalid hdisj hfresh
    obtain ⟨hlen, hletters⟩ := hvalid plug (List.mem_cons_self _ _)
    obtain ⟨x, y, hxy⟩ : ∃ x y, plug.toList = [x, y] := by
      match hp : plug.toList, hlen with
      | [x, y], _ => exact ⟨x, y, rfl⟩
    have hx : isLetter x := hletters x (by rw [hxy]; simp)
    have hy : isLetter y := hletters y (by rw [hxy]; simp)
    have hxn : goLookup acc x = none :=
      hfresh plug (List.mem_cons_self _ _) x (by rw [hxy]; simp)
    have hyn : goLookup acc y = none :=
      hfresh plug (List.mem_cons_self _ _) y (by rw [hxy]; simp)
    unfold PlugsDisjoint at hdisj
    rw [List.pairwise_cons] at hdisj
    have hstep : loadPlugs acc (plug :: rest) =
        loadPlugs (goInsert (goInsert acc x y) y x) rest := by
      simp only [loadPlugs, hxy]
    rw [hstep]
    apply ih _ (plugsSymmetric_insert hacc hx hy hxn hyn)
      (fun p hp => hvalid p (List.mem_cons_of_mem _ hp)) hdisj.2
    intro p hp c hc
    rw [goLookup_goInsert, goLookup_goInsert]
    have hcx : x ≠ c := by
      rintro rfl
      exact hdisj.1 p hp x (by rw [hxy]; simp) hc
    have hcy : y ≠ c := by
      rintro rfl
      exact hdisj.1 p hp y (by rw [hxy]; simp) hc
    rw [if_neg hcy, if_neg hcx]
    exact hfresh p (List.mem_cons_of_mem _ hp) c hc

/-! ## The loop of `Encrypt` -/

theorem encryptStep_valid (scan : ScanOrder) (st : LoopState) {letter : Char}
    (h : isLetter letter) :
    encryptStep scan st letter =
      { cipher := st.cipher ++ [encipher scan st.loops st.machine letter]
        machine := rotate st.machine
        loops := st.loops + 3 } := by
  simp only [encryptStep, goLookup_letterLookup_of_isLetter h]

theorem encryptStep_invalid (scan : ScanOrder) (st : LoopState) {letter : Char}
    (h : ¬ isLetter letter) : encryptStep scan st letter = st := by
  simp only [encryptStep, goLookup_letterLookup_of_not_isLetter h]

theorem encipher_after (scan : ScanOrder) (k : Nat) (machine : MachineState) (letter : Char) :
    encipher (scan.after k) 0 machine letter = encipher scan k machine letter := rfl

theorem after_after (scan : ScanOrder) (k n : Nat) :
    (scan.after k).after n = scan.after (k + n) := by
  funext j
  simp only [ScanOrder.after, Nat.add_assoc]

theorem Encrypt_eq_foldl (scan : ScanOrder) (machine : MachineState) (message : List Char) :
    machine.Encrypt scan message =
      ((message.foldl (encryptStep scan) { cipher := [], machine := machine, loops := 0 }).cipher,
        (message.foldl (encryptStep scan)
          { cipher := [], machine := machine, loops := 0 }).machine) := rfl

/-- The loop started in any state is the loop of a fresh call, its cipher text appended to the
text so far. -/
theorem foldl_encryptStep (message : List Char) :
    ∀ (scan : ScanOrder) (c0 : List Char) (machine : MachineState) (k : Nat),
      message.foldl (encryptStep scan) { cipher := c0, machine := machine, loops := k } =
        { cipher := c0 ++ (machine.Encrypt (scan.after k) message).1
          machine := (machine.Encrypt (scan.after k) message).2
          loops := k + 3 * letterCount message } := by
  induction message with
  | nil => intro scan c0 machine k; simp [MachineState.Encrypt, letterCount]
  | cons letter rest ih =>
    intro scan c0 machine k
    by_cases h : isLetter letter
    · have hcount : letterCount (letter :: rest) = letterCount rest + 1 := by
        simp [letterCount, List.countP_cons, h]
      have hE : (machine.Encrypt (scan.after k) (letter :: rest)) =
          (encipher scan k machine letter ::
              ((rotate machine).Encrypt (scan.after (k + 3)) rest).1,
            ((rotate machine).Encrypt (scan.after (k + 3)) rest).2) := by
        rw [Encrypt_eq_foldl, List.foldl_cons, encryptStep_valid _ _ h,
          ih (scan.after k) _ (rotate machine) (0 + 3), after_after, encipher_after]
        simp only [List.nil_append, Nat.zero_add, List.singleton_append]
      rw [List.foldl_cons, encryptStep_valid _ _ h, ih, hE, hcount]
      simp only [List.append_assoc, List.singleton_append, LoopState.mk.injEq, true_and]
      omega
    · have hcount : letterCount (letter :: rest) = letterCount rest := by
        simp [letterCount, List.countP_cons, h]
      have hE : machine.Encrypt (scan.after k) (letter :: rest) =
          machine.Encrypt (scan.after k) rest := by
        rw [Encrypt_eq_foldl, List.foldl_cons, encryptStep_invalid _ _ h]
        rfl
      rw [List.foldl_cons, encryptStep_invalid _ _ h, ih, hE, hcount]

theorem Encrypt_nil (scan : ScanOrder) (machine : MachineState) :
    machine.Encrypt scan [] = ([], machine) := rfl

theorem Encrypt_cons_valid (scan : ScanOrder) (machine : MachineState) {letter : Char}
    (rest : List Char) (h : isLetter letter) :
    machine.Encrypt scan (letter :: rest) =
      (encipher scan 0 machine letter :: ((rotate machine).Encrypt (scan.after 3) rest).1,
        ((rotate machine).Encrypt (scan.after 3) rest).2) := by
  rw [Encrypt_eq_foldl, List.foldl_cons, encryptStep_valid _ _ h,
    foldl_encryptStep rest scan _ (rotate machine) (0 + 3)]
  simp only [List.nil_append, Nat.zero_add, List.singleton_append]

theorem Encrypt_cons_invalid (scan : ScanOrder) (machine : MachineState) {letter : Char}
    (rest : List Char) (h : ¬ isLetter letter) :
    machine.Encrypt scan (letter :: rest) = machine.Encrypt scan rest := by
  rw [Encrypt_eq_foldl, List.foldl_cons, encryptStep_invalid _ _ h]
  rfl

theorem Encrypt_lettersOnly (message : List Char) :
    ∀ (scan : ScanOrder) (machine : MachineState),
      machine.Encrypt scan message = machine.Encrypt scan (lettersOnly message) := by
  induction message with
  | nil => intro scan machine; rfl
  | cons letter rest ih =>
    intro scan machine
    by_cases h : isLetter letter
    · have hf : lettersOnly (letter :: rest) = letter :: lettersOnly rest := by
        simp [lettersOnly, List.filter_cons, h]
      rw [hf, Encrypt_cons_valid _ _ _ h, Encrypt_cons_valid _ _ _ h, ih]
    · have hf : lettersOnly (letter :: rest) = lettersOnly rest := by
        simp [lettersOnly, List.filter_cons, h]
      rw [hf, Encrypt_cons_invalid _ _ _ h, ih]

theorem Encrypt_length (message : List Char) :
    ∀ (scan : ScanOrder) (machine : MachineState),
      (machine.Encrypt scan message).1.length = letterCount message := by
  induction message with
  | nil => intro scan machine; rfl
  | cons letter rest ih =>
    intro scan machine
    by_cases h : isLetter letter
    · rw [Encrypt_cons_valid _ _ _ h]
      simp [letterCount, List.countP_cons, h, ih]
    · rw [Encrypt_cons_invalid _ _ _ h]
      simp [letterCount, List.countP_cons, h, ih]

theorem Encrypt_machine (message : List Char) :
    ∀ (scan : ScanOrder) (machine : MachineState),
      (machine.Encrypt scan message).2 = rotate^[letterCount message] machine := by
  induction message with
  | nil => intro scan machine; rfl
  | cons letter rest ih =>
    intro scan machine
    by_cases h : isLetter letter
    · rw [Encrypt_cons_valid _ _ _ h]
      simp [letterCount, List.countP_cons, h, ih]
    · rw [Encrypt_cons_invalid _ _ _ h]
      simp [letterCount, List.countP_cons, h, ih]

theorem Encrypt_append (a b : List Char) (scan : ScanOrder) (machine : MachineState) :
    machine.Encrypt scan (a ++ b) =
      ((machine.Encrypt scan a).1 ++
          ((machine.Encrypt scan a).2.Encrypt (scan.after (3 * letterCount a)) b).1,
        ((machine.Encrypt scan a).2.Encrypt (scan.after (3 * letterCount a)) b).2) := by
  have h1 := foldl_encryptStep a scan [] machine 0
  have h0 : scan.after 0 = scan := by
    funext j; simp only [ScanOrder.after, Nat.zero_add]
  rw [h0] at h1
  simp only [List.nil_append, Nat.zero_add] at h1
  have h2 := foldl_encryptStep b scan (machine.Encrypt scan a).1 (machine.Encrypt scan a).2
    (3 * letterCount a)
  rw [Encrypt_eq_foldl, List.foldl_append, h1, h2]

/-! ## Rotation -/

theorem rotate_Rotors0 (machine : MachineState) :
    (rotate machine).Rotors0 =
      { machine.Rotors0 with Position := mod (wrap64 (machine.Rotors0.Position + 1)) 26 } := by
  simp only [rotate]
  split_ifs <;> rfl

theorem rotate_Rotors1 (machine : MachineState) :
    (rotate machine).Rotors1 =
      if mod (wrap64 (machine.Rotors0.Position + 1)) 26 = machine.Rotors0.TurnPosition then
        { machine.Rotors1 with Position := mod (wrap64 (machine.Rotors1.Position + 1)) 26 }
      else machine.Rotors1 := by
  simp only [rotate]
  split_ifs <;> rfl

theorem rotate_Rotors2 (machine : MachineState) :
    (rotate machine).Rotors2 =
      if mod (wrap64 (machine.Rotors0.Position + 1)) 26 = machine.Rotors0.TurnPosition ∧
          mod (wrap64 (machine.Rotors1.Position + 1)) 26 = machine.Rotors1.TurnPosition then
        { machine.Rotors2 with Position := mod (wrap64 (machine.Rotors2.Position + 1)) 26 }
      else machine.Rotors2 := by
  simp only [rotate]
  split_ifs <;> first | rfl | (exfalso; tauto)

theorem rotate_Reflector (machine : MachineState) :
    (rotate machine).Reflector = machine.Reflector := by
  simp only [rotate]
  split_ifs <;> rfl

theorem rotate_Plugs (machine : MachineState) : (rotate machine).Plugs = machine.Plugs := by
  simp only [rotate]
  split_ifs <;> rfl

theorem carries_full_cycle :
    ∀ n1 ∈ positions, ∀ p1 ∈ positions, carries n1 p1 26 = 1 := by
  decide

theorem iterate_rotate (k : Nat) :
    ∀ machine : MachineState,
      (0 ≤ machine.Rotors0.Position ∧ machine.Rotors0.Position ≤ 25) →
      (0 ≤ machine.Rotors1.Position ∧ machine.Rotors1.Position ≤ 25) →
      (rotate^[k] machine).Rotors0.Position = (machine.Rotors0.Position + k) % 26 ∧
      (rotate^[k] machine).Rotors1.Position =
        (machine.Rotors1.Position +
          carries machine.Rotors0.TurnPosition machine.Rotors0.Position k) % 26 := by
  induction k with
  | zero =>
    intro machine h0 h1
    simp only [Function.iterate_zero, id_eq, carries]
    omega
  | succ k ih =>
    intro machine h0 h1
    have hw0 : wrap64 (machine.Rotors0.Position + 1) = machine.Rotors0.Position + 1 :=
      wrap64_of_range (by omega) (by omega)
    have hw1 : wrap64 (machine.Rotors1.Position + 1) = machine.Rotors1.Position + 1 :=
      wrap64_of_range (by omega) (by omega)
    have e0 : (rotate machine).Rotors0.Position = (machine.Rotors0.Position + 1) % 26 := by
      rw [rotate_Rotors0, mod26_eq, hw0]
    have t0 : (rotate machine).Rotors0.TurnPosition = machine.Rotors0.TurnPosition := by
      rw [rotate_Rotors0]
    have e1 : (rotate machine).Rotors1.Position =
        if (machine.Rotors0.Position + 1) % 26 = machine.Rotors0.TurnPosition then
          (machine.Rotors1.Position + 1) % 26 else machine.Rotors1.Position := by
      rw [rotate_Rotors1, mod26_eq, mod26_eq, hw0, hw1]
      split_ifs <;> rfl
    obtain ⟨i0, i1⟩ := ih (rotate machine) (by rw [e0]; omega) (by rw [e1]; split_ifs <;> omega)
    rw [Function.iterate_succ_apply, i0, i1, e0, e1, t0]
    simp only [carries]
    constructor
    · push_cast; omega
    · split_ifs <;> (push_cast; omega)

/-! ## Well-formed machines -/

theorem IsPermutation26.value_range {m : GoMap Int Int} (hm : IsPermutation26 m) {x : Int}
    (hx : 0 ≤ x ∧ x ≤ 25) : 0 ≤ goIndexInt m x ∧ goIndexInt m x ≤ 25 := by
  obtain ⟨v, hv, hr⟩ := hm.lookup hx
  simp only [goIndexInt, hv]
  exact hr

theorem encipher_eq (scan : ScanOrder) (k : Nat) (machine : MachineState) (letter : Char) :
    encipher scan k machine letter =
      plugSwap machine.Plugs (goIndexRune reverseLetterLookup
        (rotorPath scan k machine (goIndexInt letterLookup (plugSwap machine.Plugs letter)))) :=
  rfl

theorem rotorPath_range (scan : ScanOrder) (k : Nat) (machine : MachineState) (i : Int) :
    0 ≤ rotorPath scan k machine i ∧ rotorPath scan k machine i ≤ 25 :=
  Rotor.backward_range _ _ _

/-- The rotor path is an involution of `0..25`, whatever the scan orders. -/
theorem rotorPath_rotorPath {machine : MachineState} (wf : WellFormed machine)
    {scan scan' : ScanOrder} (hs : scan.Legit) (hs' : scan'.Legit) (k k' : Nat) {i : Int}
    (hi : 0 ≤ i ∧ i ≤ 25) :
    rotorPath scan' k' machine (rotorPath scan k machine i) = i := by
  unfold rotorPath
  rw [Rotor.forward_backward _ wf.map0 wf.pos0 (hs _ _) (Rotor.backward_range _ _ _),
    Rotor.forward_backward _ wf.map1 wf.pos1 (hs _ _) (Rotor.backward_range _ _ _),
    Rotor.forward_backward _ wf.map2 wf.pos2 (hs _ _)
      (wf.reflector.value_range (Rotor.forward_range _ _)),
    (wf.involution _ (Rotor.forward_range _ _)).2,
    Rotor.backward_forward _ wf.map2 wf.pos2 (hs' _ _) (Rotor.forward_range _ _),
    Rotor.backward_forward _ wf.map1 wf.pos1 (hs' _ _) (Rotor.forward_range _ _),
    Rotor.backward_forward _ wf.map0 wf.pos0 (hs' _ _) hi]

theorem encipher_isLetter {machine : MachineState} (wf : WellFormed machine) (scan : ScanOrder)
    (k : Nat) (letter : Char) : isLetter (encipher scan k machine letter) := by
  rw [encipher_eq]
  exact wf.plugs.swap_isLetter (isLetter_reverse (rotorPath_range _ _ _ _))

/-- Reciprocity of the path of one letter through a well-formed machine. -/
theorem encipher_encipher {machine : MachineState} (wf : WellFormed machine)
    {scan scan' : ScanOrder} (hs : scan.Legit) (hs' : scan'.Legit) (k k' : Nat) {letter : Char}
    (hl : isLetter letter) :
    encipher scan' k' machine (encipher scan k machine letter) = letter := by
  rw [encipher_eq scan, encipher_eq scan', wf.plugs.swap_swap,
    index_reverse (rotorPath_range _ _ _ _),
    rotorPath_rotorPath wf hs hs' _ _ (index_range (wf.plugs.swap_isLetter hl)),
    reverse_index (wf.plugs.swap_isLetter hl), wf.plugs.swap_swap]

/-! ## The loader -/

theorem loadRotor_Position (rotor : rotorSetting) :
    (loadRotor rotor).Position = wrap64 (rotor.Position - 1) := by
  rw [loadRotor, Rotor.LoadMap_Position]

theorem loadRotor_perm {rotor : rotorSetting} (h : 1 ≤ rotor.Number ∧ rotor.Number ≤ 5) :
    IsPermutation26 (loadRotor rotor).Map :=
  Rotor.LoadMap_perm _ h

theorem loadRotor_offset_range {rotor : rotorSetting} (h : ValidRotorSetting rotor) :
    0 ≤ (loadRotor rotor).Position ∧ (loadRotor rotor).Position ≤ 25 := by
  obtain ⟨_, h1, h2⟩ := h
  rw [loadRotor_Position, wrap64_of_range (by omega) (by omega)]
  omega

theorem OffsetSafe.of_range {p : Int} (h : 0 ≤ p ∧ p ≤ 25) : OffsetSafe p := by
  unfold OffsetSafe; omega

/-- A valid configuration loads without panic, into a well-formed machine with offsets in
`0..25`. -/
theorem loadSettingsFromBytes_valid {s : setting} (hs : ValidConfig s) :
    ∃ machine, loadSettingsFromBytes s = .ok machine ∧ WellFormed machine ∧
      machine.Rotors0 = loadRotor s.Rotors0 ∧ machine.Rotors1 = loadRotor s.Rotors1 ∧
      machine.Rotors2 = loadRotor s.Rotors2 ∧
      machine.Reflector = Reflector.LoadMap { Letter := s.Reflector, Map := [] } := by
  obtain ⟨h0, h1, h2, hr, hp, hd⟩ := hs
  obtain ⟨plugs, hload, hsym⟩ := loadPlugs_symmetric s.Plugs [] plugsSymmetric_nil hp hd
    (fun _ _ _ _ => rfl)
  refine ⟨{ Rotors0 := loadRotor s.Rotors0, Rotors1 := loadRotor s.Rotors1,
             Rotors2 := loadRotor s.Rotors2,
             Reflector := Reflector.LoadMap { Letter := s.Reflector, Map := [] },
             Plugs := plugs }, by simp only [loadSettingsFromBytes, hload], ?_, rfl, rfl, rfl, rfl⟩
  have hrefl := Reflector.LoadMap_spec { Letter := s.Reflector, Map := [] } hr
  exact
    { map0 := loadRotor_perm h0.1
      map1 := loadRotor_perm h1.1
      map2 := loadRotor_perm h2.1
      pos0 := OffsetSafe.of_range (loadRotor_offset_range h0)
      pos1 := OffsetSafe.of_range (loadRotor_offset_range h1)
      pos2 := OffsetSafe.of_range (loadRotor_offset_range h2)
      reflector := hrefl.1
      involution := hrefl.2
      plugs := hsym }

/-! ## Configurations the loader does not reject -/

theorem loadPlugs_ok (plugs : List String) :
    ∀ acc : GoMap Char Char, (∀ plug ∈ plugs, 2 ≤ plug.toList.length) →
      loadPlugs acc plugs = .ok (plugs.foldl addPlug acc) := by
  induction plugs with
  | nil => intro acc _; rfl
  | cons plug rest ih =>
    intro acc h
    have hlen := h plug (List.mem_cons_self _ _)
    match hp : plug.toList, hlen with
    | x :: y :: tl, _ =>
      simp only [loadPlugs, hp, List.foldl_cons, addPlug, List.getD_cons_zero,
        List.getD_cons_succ]
      exact ih _ (fun p hp => h p (List.mem_cons_of_mem _ hp))

theorem loadRotor_unknown {rotor : rotorSetting} (h : ¬ (1 ≤ rotor.Number ∧ rotor.Number ≤ 5)) :
    (loadRotor rotor).Map = [] ∧ (loadRotor rotor).TurnPosition = 0 := by
  have h1 : rotor.Number ≠ 1 := by omega
  have h2 : rotor.Number ≠ 2 := by omega
  have h3 : rotor.Number ≠ 3 := by omega
  have h4 : rotor.Number ≠ 4 := by omega
  have h5 : rotor.Number ≠ 5 := by omega
  simp [loadRotor, Rotor.LoadMap, h1, h2, h3, h4, h5, loadMapLoop]

theorem reflector_unknown {letter : String}
    (h : ¬ (letter = "A" ∨ letter = "B" ∨ letter = "C")) :
    (Reflector.LoadMap { Letter := letter, Map := [] }).Map = [] := by
  have h1 : letter ≠ "A" := fun e => h (Or.inl e)
  have h2 : letter ≠ "B" := fun e => h (Or.inr (Or.inl e))
  have h3 : letter ≠ "C" := fun e => h (Or.inr (Or.inr e))
  simp only [Reflector.LoadMap, if_neg h1, if_neg h2, if_neg h3]
  rfl

/-! ## The claims -/

/-- C1 (reciprocity). On a machine that `loadSettingsFromBytes` builds from a valid
configuration, a single letter `L` of `A..Z` is enciphered to a letter `L'`, and enciphering
`L'` from the same state (the offsets not advanced) gives `L` back, whatever orders the
backward scans take. -/
theorem reciprocity (s : setting) (machine : MachineState) (scan scan' : ScanOrder) (L : Char)
    (hs : ValidConfig s) (hm : loadSettingsFromBytes s = .ok machine)
    (hscan : scan.Legit) (hscan' : scan'.Legit) (hL : isLetter L) :
    ∃ L', isLetter L' ∧ (machine.Encrypt scan [L]).1 = [L'] ∧
      (machine.Encrypt scan' [L']).1 = [L] := by
  obtain ⟨m, hm', wf, -⟩ := loadSettingsFromBytes_valid hs
  rw [hm] at hm'
  cases hm'
  have hL' := encipher_isLetter wf scan 0 L
  refine ⟨encipher scan 0 machine L, hL', ?_, ?_⟩
  · rw [Encrypt_cons_valid _ _ _ hL, Encrypt_nil]
  · rw [Encrypt_cons_valid _ _ _ hL', Encrypt_nil, encipher_encipher wf hscan hscan' 0 0 hL]

theorem insertionScan_legit : insertionScan.Legit := fun _ m => List.Perm.refl m

theorem reciprocity_witness :
    ValidConfig demoSetting ∧ loadSettingsFromBytes demoSetting = .ok demoMachine ∧
      isLetter 'A' ∧
      ∃ L', isLetter L' ∧ (demoMachine.Encrypt insertionScan ['A']).1 = [L'] ∧
        (demoMachine.Encrypt insertionScan [L']).1 = ['A'] :=
  ⟨by decide, rfl, by decide,
    reciprocity demoSetting demoMachine insertionScan insertionScan 'A' (by decide) rfl
      insertionScan_legit insertionScan_legit (by decide)⟩

/-- C2 (rotor inverse law). For a rotor number in `1..5` with the wiring `Rotor.LoadMap` loads,
an offset in `0..25` and an input `x` in `0..25`, `EncryptBackward (EncryptForward x) = x` and
`EncryptForward (EncryptBackward x) = x`, in whatever order the scan of `EncryptBackward`
visits the wiring entries. -/
theorem rotor_inverse_law (r : Rotor) (order : List (Int × Int)) (x : Int)
    (hn : 1 ≤ r.Number ∧ r.Number ≤ 5) (ho : 0 ≤ r.Position ∧ r.Position ≤ 25)
    (hx : 0 ≤ x ∧ x ≤ 25) (hord : order.Perm r.LoadMap.Map) :
    r.LoadMap.EncryptBackward order (r.LoadMap.EncryptForward x) = x ∧
      r.LoadMap.EncryptForward (r.LoadMap.EncryptBackward order x) = x := by
  have hm := Rotor.LoadMap_perm r hn
  have hp : OffsetSafe r.LoadMap.Position := by
    rw [Rotor.LoadMap_Position]; exact OffsetSafe.of_range ho
  exact ⟨Rotor.backward_forward _ hm hp hord hx, Rotor.forward_backward _ hm hp hord hx⟩

theorem rotor_inverse_law_witness :
    (Rotor.LoadMap ⟨3, 11, 0, []⟩).EncryptBackward (Rotor.LoadMap ⟨3, 11, 0, []⟩).Map.reverse
        ((Rotor.LoadMap ⟨3, 11, 0, []⟩).EncryptForward 7) = 7 ∧
      (Rotor.LoadMap ⟨3, 11, 0, []⟩).EncryptForward
        ((Rotor.LoadMap ⟨3, 11, 0, []⟩).EncryptBackward
          (Rotor.LoadMap ⟨3, 11, 0, []⟩).Map.reverse 7) = 7 :=
  rotor_inverse_law ⟨3, 11, 0, []⟩ _ 7 (by decide) (by decide) (by decide)
    (List.reverse_perm _)

/-- C3 (filtering). From any machine state, `Encrypt` of a message returns the same cipher text
and leaves the same machine as `Encrypt` of the message with every character outside `A..Z`
removed, and the cipher text has as many characters as the message has letters of `A..Z`; so
the message `HELLO, WORLD!` followed by a newline gives the 10 letters that `HELLOWORLD`
gives. -/
theorem filtering (scan : ScanOrder) (machine : MachineState) (message : List Char) :
    machine.Encrypt scan message = machine.Encrypt scan (lettersOnly message) ∧
      (machine.Encrypt scan message).1.length = letterCount message ∧
      machine.Encrypt scan "HELLO, WORLD!\n".toList = machine.Encrypt scan "HELLOWORLD".toList ∧
      (machine.Encrypt scan "HELLO, WORLD!\n".toList).1.length = 10 := by
  refine ⟨Encrypt_lettersOnly _ _ _, Encrypt_length _ _ _, ?_, ?_⟩
  · rw [Encrypt_lettersOnly]
    rfl
  · rw [Encrypt_length]
    decide

/-- C4 (stepping rule). Enciphering one valid letter from offsets `p1, p2, p3` in `0..25` with
notches `n1, n2, n3` leaves rotor 1 at `(p1 + 1) mod 26`, rotor 2 at `(p2 + 1) mod 26` when
`(p1 + 1) mod 26 = n1` and at `p2` otherwise, rotor 3 at `(p3 + 1) mod 26` when moreover
`(p2 + 1) mod 26 = n2` and at `p3` otherwise; the letter returned is the one enciphered by the
machine as it was before the step. -/
theorem stepping_rule (scan : ScanOrder) (machine : MachineState) (L : Char)
    (hL : isLetter L)
    (h1 : 0 ≤ machine.Rotors0.Position ∧ machine.Rotors0.Position ≤ 25)
    (h2 : 0 ≤ machine.Rotors1.Position ∧ machine.Rotors1.Position ≤ 25)
    (h3 : 0 ≤ machine.Rotors2.Position ∧ machine.Rotors2.Position ≤ 25) :
    (machine.Encrypt scan [L]).2.Rotors0.Position = (machine.Rotors0.Position + 1) % 26 ∧
      (machine.Encrypt scan [L]).2.Rotors1.Position =
        (if (machine.Rotors0.Position + 1) % 26 = machine.Rotors0.TurnPosition
          then (machine.Rotors1.Position + 1) % 26 else machine.Rotors1.Position) ∧
      (machine.Encrypt scan [L]).2.Rotors2.Position =
        (if (machine.Rotors0.Position + 1) % 26 = machine.Rotors0.TurnPosition ∧
            (machine.Rotors1.Position + 1) % 26 = machine.Rotors1.TurnPosition
          then (machine.Rotors2.Position + 1) % 26 else machine.Rotors2.Position) ∧
      (machine.Encrypt scan [L]).1 = [encipher scan 0 machine L] := by
  have hw0 : wrap64 (machine.Rotors0.Position + 1) = machine.Rotors0.Position + 1 :=
    wrap64_of_range (by omega) (by omega)
  have hw1 : wrap64 (machine.Rotors1.Position + 1) = machine.Rotors1.Position + 1 :=
    wrap64_of_range (by omega) (by omega)
  have hw2 : wrap64 (machine.Rotors2.Position + 1) = machine.Rotors2.Position + 1 :=
    wrap64_of_range (by omega) (by omega)
  rw [Encrypt_cons_valid _ _ _ hL, Encrypt_nil]
  simp only [rotate_Rotors0, rotate_Rotors1, rotate_Rotors2, mod26_eq, hw0, hw1, hw2]
  refine ⟨trivial, ?_, ?_, trivial⟩
  · split_ifs <;> rfl
  · split_ifs <;> rfl

theorem stepping_rule_witness :
    (carryMachine.Encrypt insertionScan ['A']).2.Rotors0.Position = 17 ∧
      (carryMachine.Encrypt insertionScan ['A']).2.Rotors1.Position = 5 ∧
      (carryMachine.Encrypt insertionScan ['A']).2.Rotors2.Position = 1 ∧
      (carryMachine.Encrypt insertionScan ['A']).1 = [encipher insertionScan 0 carryMachine 'A'] :=
  stepping_rule insertionScan carryMachine 'A' (by decide) (by decide) (by decide) (by decide)

/-- C5 (full cycle). On a machine whose rotor offsets and notch positions are in `0..25`,
after `Encrypt` of a message with exactly 26 valid letters rotor 1 is back at its initial
offset and rotor 2 is at its initial offset plus one modulo 26. -/
theorem full_cycle (scan : ScanOrder) (machine : MachineState) (message : List Char)
    (hp0 : 0 ≤ machine.Rotors0.Position ∧ machine.Rotors0.Position ≤ 25)
    (hp1 : 0 ≤ machine.Rotors1.Position ∧ machine.Rotors1.Position ≤ 25)
    (hp2 : 0 ≤ machine.Rotors2.Position ∧ machine.Rotors2.Position ≤ 25)
    (hn0 : 0 ≤ machine.Rotors0.TurnPosition ∧ machine.Rotors0.TurnPosition ≤ 25)
    (hn1 : 0 ≤ machine.Rotors1.TurnPosition ∧ machine.Rotors1.TurnPosition ≤ 25)
    (hn2 : 0 ≤ machine.Rotors2.TurnPosition ∧ machine.Rotors2.TurnPosition ≤ 25)
    (hcount : letterCount message = 26) :
    (machine.Encrypt scan message).2.Rotors0.Position = machine.Rotors0.Position ∧
      (machine.Encrypt scan message).2.Rotors1.Position =
        (machine.Rotors1.Position + 1) % 26 := by
  obtain ⟨e0, e1⟩ := iterate_rotate 26 machine hp0 hp1
  rw [carries_full_cycle _ (mem_positions.mpr hn0) _ (mem_positions.mpr hp0)] at e1
  rw [Encrypt_machine, hcount, e0, e1]
  constructor
  · push_cast; omega
  · rfl

theorem full_cycle_witness :
    letterCount "ABCDEFGHIJKLMNOPQRSTUVWXYZ".toList = 26 ∧
      demoMachine.Rotors0.Position = 0 ∧ demoMachine.Rotors1.Position = 0 ∧
      (demoMachine.Encrypt insertionScan "ABCDEFGHIJKLMNOPQRSTUVWXYZ".toList).2.Rotors0.Position
        = 0 ∧
      (demoMachine.Encrypt insertionScan "ABCDEFGHIJKLMNOPQRSTUVWXYZ".toList).2.Rotors1.Position
        = 1 :=
  ⟨by decide, by decide, by decide,
    full_cycle insertionScan demoMachine "ABCDEFGHIJKLMNOPQRSTUVWXYZ".toList (by decide)
      (by decide) (by decide) (by decide) (by decide) (by decide) (by decide)⟩

/-- C6 (statefulness across calls). From any machine state, `Encrypt` of `a` followed by
`Encrypt` of `b` on the machine the first call left returns two strings whose concatenation
is the cipher text of `a ++ b`, and ends in the same machine; on rotors I, II, III at offsets
0 with reflector B the first call of `A` leaves rotor 1 at offset 1 and the second call of `A`
returns a letter other than the first. -/
theorem statefulness (scan : ScanOrder) (machine : MachineState) (a b : List Char) :
    machine.Encrypt scan (a ++ b) =
        ((machine.Encrypt scan a).1 ++
            ((machine.Encrypt scan a).2.Encrypt (scan.after (3 * letterCount a)) b).1,
          ((machine.Encrypt scan a).2.Encrypt (scan.after (3 * letterCount a)) b).2) ∧
      (demoMachine.Encrypt insertionScan ['A']).2.Rotors0.Position = 1 ∧
      ((demoMachine.Encrypt insertionScan ['A']).2.Encrypt insertionScan ['A']).1 ≠
        (demoMachine.Encrypt insertionScan ['A']).1 :=
  ⟨Encrypt_append a b scan machine, by decide, by decide⟩

/-- C7 (bijectivity). For each rotor number `1..5` the map built by `Rotor.LoadMap`, and for
each reflector letter `A`, `B`, `C` the map built by `Reflector.LoadMap`, has exactly the keys
`0..25`, its values are a rearrangement of `0..25`, and no two distinct keys have the same
value. -/
theorem wiring_bijective (r : Rotor) (f : Reflector)
    (hr : 1 ≤ r.Number ∧ r.Number ≤ 5)
    (hf : f.Letter = "A" ∨ f.Letter = "B" ∨ f.Letter = "C") :
    (IsPermutation26 r.LoadMap.Map ∧
      ∀ k k' : Int, k ∈ positions → k' ∈ positions → k ≠ k' →
        goIndexInt r.LoadMap.Map k ≠ goIndexInt r.LoadMap.Map k') ∧
    (IsPermutation26 f.LoadMap.Map ∧
      ∀ k k' : Int, k ∈ positions → k' ∈ positions → k ≠ k' →
        goIndexInt f.LoadMap.Map k ≠ goIndexInt f.LoadMap.Map k') := by
  have key : ∀ m : GoMap Int Int, IsPermutation26 m →
      ∀ k k' : Int, k ∈ positions → k' ∈ positions → k ≠ k' →
        goIndexInt m k ≠ goIndexInt m k' := by
    intro m hm k k' hk hk' hne heq
    obtain ⟨v, hv, -⟩ := hm.lookup (mem_positions.mp hk)
    obtain ⟨v', hv', -⟩ := hm.lookup (mem_positions.mp hk')
    simp only [goIndexInt, hv, hv'] at heq
    subst heq
    exact hne (hm.injective hv hv')
  exact ⟨⟨Rotor.LoadMap_perm r hr, key _ (Rotor.LoadMap_perm r hr)⟩,
    ⟨(Reflector.LoadMap_spec f hf).1, key _ (Reflector.LoadMap_spec f hf).1⟩⟩

theorem wiring_bijective_witness :
    (IsPermutation26 (Rotor.LoadMap ⟨4, 0, 0, []⟩).Map ∧
      ∀ k k' : Int, k ∈ positions → k' ∈ positions → k ≠ k' →
        goIndexInt (Rotor.LoadMap ⟨4, 0, 0, []⟩).Map k ≠
          goIndexInt (Rotor.LoadMap ⟨4, 0, 0, []⟩).Map k') ∧
    (IsPermutation26 (Reflector.LoadMap ⟨"C", []⟩).Map ∧
      ∀ k k' : Int, k ∈ positions → k' ∈ positions → k ≠ k' →
        goIndexInt (Reflector.LoadMap ⟨"C", []⟩).Map k ≠
          goIndexInt (Reflector.LoadMap ⟨"C", []⟩).Map k') :=
  wiring_bijective ⟨4, 0, 0, []⟩ ⟨"C", []⟩ (by decide) (by decide)

/-- C8 (the reflector has no fixed point). For each reflector letter `A`, `B`, `C` and every
`x` in `0..25`, the map built by `Reflector.LoadMap` has `Map[x] ≠ x`. -/
theorem reflector_no_fixed_point (f : Reflector) (x : Int)
    (hf : f.Letter = "A" ∨ f.Letter = "B" ∨ f.Letter = "C") (hx : 0 ≤ x ∧ x ≤ 25) :
    goIndexInt f.LoadMap.Map x ≠ x :=
  ((Reflector.LoadMap_spec f hf).2 x hx).1

theorem reflector_no_fixed_point_witness :
    goIndexInt (Reflector.LoadMap ⟨"A", []⟩).Map 4 ≠ 4 :=
  reflector_no_fixed_point ⟨"A", []⟩ 4 (by decide) (by decide)

/-- C9 (the reflector is an involution). For each reflector letter `A`, `B`, `C` and every `x`
in `0..25`, the map built by `Reflector.LoadMap` has `Map[Map[x]] = x`. -/
theorem reflector_involution (f : Reflector) (x : Int)
    (hf : f.Letter = "A" ∨ f.Letter = "B" ∨ f.Letter = "C") (hx : 0 ≤ x ∧ x ≤ 25) :
    goIndexInt f.LoadMap.Map (goIndexInt f.LoadMap.Map x) = x :=
  ((Reflector.LoadMap_spec f hf).2 x hx).2

theorem reflector_involution_witness :
    goIndexInt (Reflector.LoadMap ⟨"B", []⟩).Map
      (goIndexInt (Reflector.LoadMap ⟨"B", []⟩).Map 25) = 25 :=
  reflector_involution ⟨"B", []⟩ 25 (by decide) (by decide)

/-- C10, as claimed, fails: each of the four defects is accepted. A rotor identifier 9, a
reflector identifier `D`, a plug string of three letters and a letter used by two pairs are
all malformed, and for each `loadSettingsFromBytes` returns a machine: with an empty rotor
wiring and notch 0, with an empty reflector wiring, with the first two letters paired, with
the later pair written over the earlier one. -/
theorem loader_accepts_malformed :
    (Malformed badRotorSetting ∧
      loadSettingsFromBytes badRotorSetting =
        .ok { demoMachine with Rotors0 := ⟨9, 0, 0, []⟩ }) ∧
    (Malformed badReflectorSetting ∧
      loadSettingsFromBytes badReflectorSetting =
        .ok { demoMachine with Reflector := ⟨"D", []⟩ }) ∧
    (Malformed longPlugSetting ∧
      loadSettingsFromBytes longPlugSetting =
        .ok { demoMachine with Plugs := [('A', 'B'), ('B', 'A')] }) ∧
    (Malformed reusedLetterSetting ∧
      loadSettingsFromBytes reusedLetterSetting =
        .ok { demoMachine with Plugs := [('A', 'C'), ('B', 'A'), ('C', 'A')] }) :=
  ⟨⟨by decide, rfl⟩, ⟨by decide, rfl⟩, ⟨by decide, rfl⟩, ⟨by decide, rfl⟩⟩

/-- C10, amended. `loadSettingsFromBytes` validates nothing: for every configuration whose
plug strings all have two characters or more it returns a machine, whose rotors and reflector
are loaded from the identifiers as they are and whose plug map pairs the first two characters
of each plug string in turn, later pairs overwriting earlier ones; a rotor identifier outside
`1..5` gives an empty wiring and notch 0, a reflector identifier other than `A`, `B`, `C` an
empty wiring. -/
theorem loader_validates_nothing (s : setting)
    (hlen : ∀ plug ∈ s.Plugs, 2 ≤ plug.toList.length) :
    ∃ machine, loadSettingsFromBytes s = .ok machine ∧
      machine.Rotors0 = loadRotor s.Rotors0 ∧ machine.Rotors1 = loadRotor s.Rotors1 ∧
      machine.Rotors2 = loadRotor s.Rotors2 ∧
      machine.Reflector = Reflector.LoadMap { Letter := s.Reflector, Map := [] } ∧
      machine.Plugs = s.Plugs.foldl addPlug [] ∧
      (∀ rotor : rotorSetting, ¬ (1 ≤ rotor.Number ∧ rotor.Number ≤ 5) →
        (loadRotor rotor).Map = [] ∧ (loadRotor rotor).TurnPosition = 0) ∧
      (¬ (s.Reflector = "A" ∨ s.Reflector = "B" ∨ s.Reflector = "C") →
        machine.Reflector.Map = []) := by
  refine ⟨{ Rotors0 := loadRotor s.Rotors0, Rotors1 := loadRotor s.Rotors1,
            Rotors2 := loadRotor s.Rotors2,
            Reflector := Reflector.LoadMap { Letter := s.Reflector, Map := [] },
            Plugs := s.Plugs.foldl addPlug [] }, ?_, rfl, rfl, rfl, rfl, rfl, ?_, ?_⟩
  · simp only [loadSettingsFromBytes, loadPlugs_ok s.Plugs [] hlen]
  · intro rotor h
    exact loadRotor_unknown h
  · intro h
    exact reflector_unknown h

theorem loader_validates_nothing_witness :
    ∃ machine, loadSettingsFromBytes reusedLetterSetting = .ok machine ∧
      machine.Rotors0 = loadRotor reusedLetterSetting.Rotors0 ∧
      machine.Rotors1 = loadRotor reusedLetterSetting.Rotors1 ∧
      machine.Rotors2 = loadRotor reusedLetterSetting.Rotors2 ∧
      machine.Reflector = Reflector.LoadMap { Letter := reusedLetterSetting.Reflector, Map := [] } ∧
      machine.Plugs = reusedLetterSetting.Plugs.foldl addPlug [] ∧
      (∀ rotor : rotorSetting, ¬ (1 ≤ rotor.Number ∧ rotor.Number ≤ 5) →
        (loadRotor rotor).Map = [] ∧ (loadRotor rotor).TurnPosition = 0) ∧
      (¬ (reusedLetterSetting.Reflector = "A" ∨ reusedLetterSetting.Reflector = "B" ∨
          reusedLetterSetting.Reflector = "C") →
        machine.Reflector.Map = []) :=
  loader_validates_nothing reusedLetterSetting (by decide)

/-! ## The plug map of the loader -/

/-- The plug map after a list of disjoint two-character pairs: each pair is entered both ways
and every other key is as it was. -/
theorem loadPlugs_pairs (plugs : List String) :
    ∀ acc : GoMap Char Char, (∀ plug ∈ plugs, plug.toList.length = 2) →
      PlugsDisjoint plugs →
      ∃ m, loadPlugs acc plugs = .ok m ∧
        (∀ plug ∈ plugs, ∀ x y, plug.toList = [x, y] →
          goLookup m x = some y ∧ goLookup m y = some x) ∧
        (∀ k, (∀ plug ∈ plugs, k ∉ plug.toList) → goLookup m k = goLookup acc k) := by
  induction plugs with
  | nil =>
    intro acc _ _
    exact ⟨acc, rfl, fun _ h => absurd h (List.not_mem_nil _), fun _ _ => rfl⟩
  | cons plug rest ih =>
    intro acc hlen hdisj
    obtain ⟨x, y, hxy⟩ : ∃ x y, plug.toList = [x, y] := by
      match hp : plug.toList, hlen plug (List.mem_cons_self _ _) with
      | [x, y], _ => exact ⟨x, y, rfl⟩
    unfold PlugsDisjoint at hdisj
    rw [List.pairwise_cons] at hdisj
    have hstep : loadPlugs acc (plug :: rest) =
        loadPlugs (goInsert (goInsert acc x y) y x) rest := by
      simp only [loadPlugs, hxy]
    obtain ⟨m, hm, hpairs, hframe⟩ := ih (goInsert (goInsert acc x y) y x)
      (fun p hp => hlen p (List.mem_cons_of_mem _ hp)) hdisj.2
    have hxr : ∀ p ∈ rest, x ∉ p.toList := fun p hp => hdisj.1 p hp x (by rw [hxy]; simp)
    have hyr : ∀ p ∈ rest, y ∉ p.toList := fun p hp => hdisj.1 p hp y (by rw [hxy]; simp)
    have hx : goLookup m x = some y := by
      rw [hframe x hxr, goLookup_goInsert, goLookup_goInsert]
      by_cases h : y = x
      · rw [if_pos h, h]
      · rw [if_neg h, if_pos rfl]
    have hy : goLookup m y = some x := by
      rw [hframe y hyr, goLookup_goInsert, if_pos rfl]
    refine ⟨m, by rw [hstep, hm], ?_, ?_⟩
    · intro p hp a b hab
      rcases List.mem_cons.mp hp with h | h
      · subst h
        rw [hxy] at hab
        simp only [List.cons.injEq, and_true] at hab
        obtain ⟨rfl, rfl⟩ := hab
        exact ⟨hx, hy⟩
      · exact hpairs p h a b hab
    · intro k hk
      have hkx : x ≠ k := by
        rintro rfl
        exact hk plug (List.mem_cons_self _ _) (by rw [hxy]; simp)
      have hky : y ≠ k := by
        rintro rfl
        exact hk plug (List.mem_cons_self _ _) (by rw [hxy]; simp)
      rw [hframe k (fun p hp => hk p (List.mem_cons_of_mem _ hp)), goLookup_goInsert,
        goLookup_goInsert, if_neg hky, if_neg hkx]

/-- C11 (plug-board symmetry). For a list of two-character pairs in which no letter is used by
two pairs, `loadSettingsFromBytes` builds a machine whose `Plugs` map sends `x` to `y` and `y`
to `x` for each pair `xy`, has no key outside the pairs, and sends the value of every key back
to the key. -/
theorem plugboard_symmetry (s : setting)
    (hlen : ∀ plug ∈ s.Plugs, plug.toList.length = 2) (hdisj : PlugsDisjoint s.Plugs) :
    ∃ machine, loadSettingsFromBytes s = .ok machine ∧
      (∀ plug ∈ s.Plugs, ∀ x y, plug.toList = [x, y] →
        goLookup machine.Plugs x = some y ∧ goLookup machine.Plugs y = some x) ∧
      (∀ k v, goLookup machine.Plugs k = some v → ∃ plug ∈ s.Plugs, k ∈ plug.toList) ∧
      (∀ k v, goLookup machine.Plugs k = some v → goLookup machine.Plugs v = some k) := by
  obtain ⟨m, hm, hpairs, hframe⟩ := loadPlugs_pairs s.Plugs [] hlen hdisj
  have hkeys : ∀ k v, goLookup m k = some v → ∃ plug ∈ s.Plugs, k ∈ plug.toList := by
    intro k v hkv
    by_contra hnone
    have hk : ∀ plug ∈ s.Plugs, k ∉ plug.toList := fun p hp hmem => hnone ⟨p, hp, hmem⟩
    rw [hframe k hk] at hkv
    simp [goLookup] at hkv
  refine ⟨{ Rotors0 := loadRotor s.Rotors0, Rotors1 := loadRotor s.Rotors1,
            Rotors2 := loadRotor s.Rotors2,
            Reflector := Reflector.LoadMap { Letter := s.Reflector, Map := [] },
            Plugs := m }, by simp only [loadSettingsFromBytes, hm], hpairs, hkeys, ?_⟩
  intro k v hkv
  obtain ⟨plug, hp, hk⟩ := hkeys k v hkv
  obtain ⟨x, y, hxy⟩ : ∃ x y, plug.toList = [x, y] := by
    match hq : plug.toList, hlen plug hp with
    | [x, y], _ => exact ⟨x, y, rfl⟩
  obtain ⟨hx, hy⟩ := hpairs plug hp x y hxy
  rw [hxy] at hk
  simp only [List.mem_cons, List.mem_singleton, List.not_mem_nil, or_false] at hk
  rcases hk with rfl | rfl
  · rw [hx] at hkv
    cases hkv
    exact hy
  · rw [hy] at hkv
    cases hkv
    exact hx

theorem plugboard_symmetry_witness :
    ∃ machine, loadSettingsFromBytes abSetting = .ok machine ∧
      goLookup machine.Plugs 'A' = some 'B' ∧ goLookup machine.Plugs 'B' = some 'A' ∧
      (∀ k v, goLookup machine.Plugs k = some v → k = 'A' ∨ k = 'B') ∧
      (∀ k v, goLookup machine.Plugs k = some v → goLookup machine.Plugs v = some k) := by
  obtain ⟨machine, hm, hpairs, hkeys, hsym⟩ :=
    plugboard_symmetry abSetting (by decide) (by decide)
  have hab := hpairs "AB" (by decide) 'A' 'B' rfl
  refine ⟨machine, hm, hab.1, hab.2, ?_, hsym⟩
  intro k v hkv
  obtain ⟨plug, hp, hk⟩ := hkeys k v hkv
  have hplug : plug = "AB" := by simpa [abSetting] using hp
  subst hplug
  simpa using hk

/-- C12 (the alphabet codec is a bijection). After `makeLetterLookup` and
`makeReverseLetterLookup`, `letterLookup` has exactly the 26 keys `A..Z`, with values in
`0..25`, `reverseLetterLookup` has exactly the keys `0..25`,
`reverseLetterLookup[letterLookup[c]] = c` for every letter `c` of `A..Z` and
`letterLookup[reverseLetterLookup[i]] = i` for every `i` in `0..25`. -/
theorem alphabet_codec_bijection :
    makeLetterLookup.map Prod.fst = alphabet ∧ alphabet.length = 26 ∧ alphabet.Nodup ∧
      (∀ c : Char, (goLookup makeLetterLookup c).isSome ↔ isLetter c) ∧
      (∀ c : Char, isLetter c →
        (0 ≤ goIndexInt makeLetterLookup c ∧ goIndexInt makeLetterLookup c ≤ 25) ∧
        goIndexRune makeReverseLetterLookup (goIndexInt makeLetterLookup c) = c) ∧
      makeReverseLetterLookup.map Prod.fst = positions ∧
      (∀ i : Int, (goLookup makeReverseLetterLookup i).isSome ↔ 0 ≤ i ∧ i ≤ 25) ∧
      (∀ i : Int, 0 ≤ i ∧ i ≤ 25 →
        isLetter (goIndexRune makeReverseLetterLookup i) ∧
        goIndexInt makeLetterLookup (goIndexRune makeReverseLetterLookup i) = i) := by
  have hrev : makeReverseLetterLookup.map Prod.fst = positions := by decide
  have hrevnd : (makeReverseLetterLookup.map Prod.fst).Nodup := by rw [hrev]; exact nodup_positions
  refine ⟨letterLookup_keys, by decide, by decide, ?_, ?_, hrev, ?_, ?_⟩
  · intro c
    constructor
    · intro h
      by_contra hc
      have := goLookup_letterLookup_of_not_isLetter hc
      unfold letterLookup at this
      rw [this] at h
      simp at h
    · intro h
      have := goLookup_letterLookup_of_isLetter h
      unfold letterLookup at this
      rw [this]
      rfl
  · intro c h
    exact ⟨index_range h, reverse_index h⟩
  · intro i
    constructor
    · intro h
      cases hl : goLookup makeReverseLetterLookup i with
      | none => rw [hl] at h; simp at h
      | some c =>
        have hmem : i ∈ makeReverseLetterLookup.map Prod.fst :=
          List.mem_map.mpr ⟨(i, c), mem_of_goLookup hl, rfl⟩
        rw [hrev] at hmem
        exact mem_positions.mp hmem
    · intro h
      have hmem : i ∈ makeReverseLetterLookup.map Prod.fst := by
        rw [hrev]; exact mem_positions.mpr h
      obtain ⟨⟨a, c⟩, hac, ha⟩ := List.mem_map.mp hmem
      simp only at ha
      subst ha
      rw [goLookup_of_mem hrevnd hac]
      rfl
  · intro i h
    exact ⟨isLetter_reverse h, index_reverse h⟩

/-! ## The function `mod` on any positive modulus -/

theorem tmod_of_pos (d m : Int) (hm : 0 < m) :
    Int.tmod d m = if 0 ≤ d then d % m else -((-d) % m) := by
  cases d with
  | ofNat n =>
    have h : (0 : Int) ≤ Int.ofNat n := Int.ofNat_nonneg n
    rw [if_pos h]
    exact Int.tmod_eq_emod h (Int.le_of_lt hm)
  | negSucc n =>
    have h : ¬ (0 : Int) ≤ Int.negSucc n := by
      have := Int.negSucc_lt_zero n
      omega
    rw [if_neg h]
    obtain ⟨k, rfl⟩ := Int.eq_ofNat_of_zero_le (Int.le_of_lt hm)
    rw [Int.neg_negSucc]
    rfl

/-- For a positive modulus that is a Go `int`, the source's `mod` is the mathematical
remainder. -/
theorem mod_eq_emod (d m : Int) (hm : 0 < m) (hint : m < 9223372036854775808) :
    mod d m = d % m := by
  unfold mod
  simp only [tmod_of_pos d m hm]
  by_cases hd : 0 ≤ d
  · have h0 := Int.emod_nonneg d (Int.ne_of_gt hm)
    rw [if_pos hd, if_neg (by omega)]
  · have h0 := Int.emod_nonneg (-d) (Int.ne_of_gt hm)
    have h1 := Int.emod_lt_of_pos (-d) hm
    have hq := Int.emod_add_ediv (-d) m
    rw [if_neg hd]
    by_cases hr : (-d) % m = 0
    · rw [if_neg (by omega), hr]
      have hd' : d = 0 + m * (-((-d) / m)) := by
        rw [hr] at hq
        linear_combination hq
      rw [hd', Int.add_mul_emod_self_left]
      rfl
    · rw [if_pos (by omega), wrap64_of_range (by omega) (by omega)]
      have hd' : d = (m - (-d) % m) + m * (-((-d) / m) - 1) := by
        linear_combination hq
      have hlt : (m - (-d) % m) % m = m - (-d) % m :=
        Int.emod_eq_of_lt (by omega) (by omega)
      conv_rhs => rw [hd', Int.add_mul_emod_self_left, hlt]
      omega

/-! ## Frame and range of the rotation -/

theorem SameButPositions.refl (a : MachineState) : SameButPositions a a :=
  ⟨⟨rfl, rfl, rfl⟩, ⟨rfl, rfl, rfl⟩, ⟨rfl, rfl, rfl⟩, rfl, rfl⟩

theorem SameButPositions.trans {a b c : MachineState} (h : SameButPositions a b)
    (h' : SameButPositions b c) : SameButPositions a c := by
  obtain ⟨⟨a1, a2, a3⟩, ⟨a4, a5, a6⟩, ⟨a7, a8, a9⟩, a10, a11⟩ := h
  obtain ⟨⟨b1, b2, b3⟩, ⟨b4, b5, b6⟩, ⟨b7, b8, b9⟩, b10, b11⟩ := h'
  exact ⟨⟨a1.trans b1, a2.trans b2, a3.trans b3⟩, ⟨a4.trans b4, a5.trans b5, a6.trans b6⟩,
    ⟨a7.trans b7, a8.trans b8, a9.trans b9⟩, a10.trans b10, a11.trans b11⟩

theorem rotate_frame (machine : MachineState) : SameButPositions machine (rotate machine) := by
  refine ⟨⟨?_, ?_, ?_⟩, ⟨?_, ?_, ?_⟩, ⟨?_, ?_, ?_⟩, (rotate_Reflector machine).symm,
    (rotate_Plugs machine).symm⟩
  all_goals first
    | (rw [rotate_Rotors0])
    | (rw [rotate_Rotors1]; split_ifs <;> rfl)
    | (rw [rotate_Rotors2]; split_ifs <;> rfl)

theorem iterate_rotate_frame (n : Nat) :
    ∀ machine : MachineState, SameButPositions machine (rotate^[n] machine) := by
  induction n with
  | zero => intro machine; exact SameButPositions.refl machine
  | succ n ih =>
    intro machine
    rw [Function.iterate_succ_apply]
    exact (rotate_frame machine).trans (ih (rotate machine))

theorem rotate_Position0 (machine : MachineState) : InRange26 (rotate machine).Rotors0.Position := by
  rw [rotate_Rotors0]
  exact mod26_range _

theorem rotate_Position1 (machine : MachineState) :
    (rotate machine).Rotors1.Position = machine.Rotors1.Position ∨
      InRange26 (rotate machine).Rotors1.Position := by
  rw [rotate_Rotors1]
  split_ifs
  · exact Or.inr (mod26_range _)
  · exact Or.inl rfl

theorem rotate_Position2 (machine : MachineState) :
    (rotate machine).Rotors2.Position = machine.Rotors2.Position ∨
      InRange26 (rotate machine).Rotors2.Position := by
  rw [rotate_Rotors2]
  split_ifs
  · exact Or.inr (mod26_range _)
  · exact Or.inl rfl

/-- After any number of rotations rotor 1 is in `0..25` as soon as one rotation was made, and
each of the other two offsets is either the initial one or in `0..25`. -/
theorem iterate_rotate_range (n : Nat) (machine : MachineState) :
    (1 ≤ n → InRange26 (rotate^[n] machine).Rotors0.Position) ∧
    ((rotate^[n] machine).Rotors0.Position = machine.Rotors0.Position ∨
      InRange26 (rotate^[n] machine).Rotors0.Position) ∧
    ((rotate^[n] machine).Rotors1.Position = machine.Rotors1.Position ∨
      InRange26 (rotate^[n] machine).Rotors1.Position) ∧
    ((rotate^[n] machine).Rotors2.Position = machine.Rotors2.Position ∨
      InRange26 (rotate^[n] machine).Rotors2.Position) := by
  induction n with
  | zero =>
    exact ⟨fun h => absurd h (by decide), Or.inl rfl, Or.inl rfl, Or.inl rfl⟩
  | succ n ih =>
    obtain ⟨-, -, i1, i2⟩ := ih
    rw [Function.iterate_succ_apply']
    refine ⟨fun _ => rotate_Position0 _, Or.inr (rotate_Position0 _), ?_, ?_⟩
    · rcases rotate_Position1 (rotate^[n] machine) with h | h
      · rw [h]; exact i1
      · exact Or.inr h
    · rcases rotate_Position2 (rotate^[n] machine) with h | h
      · rw [h]; exact i2
      · exact Or.inr h

/-- C13 (the modulo is the mathematical one). For every integer `d`, negative included, and
every modulus `m > 0` that is a Go `int`, `mod d m` lies in `[0, m)` and `d - mod d m` is
divisible by `m`; and `EncryptForward` and `EncryptBackward` return a value in `0..25` for
every input, offset, wiring and scan order. -/
theorem mod_true_modulo (d m : Int) (r : Rotor) (order : List (Int × Int)) (x : Int)
    (hm : 0 < m) (hint : m < 9223372036854775808) :
    (0 ≤ mod d m ∧ mod d m < m ∧ m ∣ d - mod d m) ∧
      (0 ≤ r.EncryptForward x ∧ r.EncryptForward x ≤ 25) ∧
      (0 ≤ r.EncryptBackward order x ∧ r.EncryptBackward order x ≤ 25) := by
  refine ⟨?_, r.forward_range x, r.backward_range order x⟩
  rw [mod_eq_emod d m hm hint]
  exact ⟨Int.emod_nonneg d (Int.ne_of_gt hm), Int.emod_lt_of_pos d hm,
    Int.dvd_sub_of_emod_eq rfl⟩

theorem mod_true_modulo_witness :
    (0 ≤ mod (-7) 26 ∧ mod (-7) 26 < 26 ∧ (26 : Int) ∣ -7 - mod (-7) 26) ∧
      (0 ≤ (Rotor.mk 1 (-40) 17 []).EncryptForward (-3) ∧
        (Rotor.mk 1 (-40) 17 []).EncryptForward (-3) ≤ 25) ∧
      (0 ≤ (Rotor.mk 1 (-40) 17 []).EncryptBackward [] (-3) ∧
        (Rotor.mk 1 (-40) 17 []).EncryptBackward [] (-3) ≤ 25) :=
  mod_true_modulo (-7) 26 (Rotor.mk 1 (-40) 17 []) [] (-3) (by decide) (by decide)

/-- C14 (frame). For every machine state, scan schedule and message, `Encrypt` changes nothing
but the three rotor offsets: each rotor's `Number`, `TurnPosition` and `Map`, the reflector's
`Letter` and `Map`, and the `Plugs` map are after the call what they were before it. -/
theorem encrypt_frame (scan : ScanOrder) (machine : MachineState) (message : List Char) :
    ((machine.Encrypt scan message).2.Rotors0.Number = machine.Rotors0.Number ∧
      (machine.Encrypt scan message).2.Rotors0.TurnPosition = machine.Rotors0.TurnPosition ∧
      (machine.Encrypt scan message).2.Rotors0.Map = machine.Rotors0.Map) ∧
    ((machine.Encrypt scan message).2.Rotors1.Number = machine.Rotors1.Number ∧
      (machine.Encrypt scan message).2.Rotors1.TurnPosition = machine.Rotors1.TurnPosition ∧
      (machine.Encrypt scan message).2.Rotors1.Map = machine.Rotors1.Map) ∧
    ((machine.Encrypt scan message).2.Rotors2.Number = machine.Rotors2.Number ∧
      (machine.Encrypt scan message).2.Rotors2.TurnPosition = machine.Rotors2.TurnPosition ∧
      (machine.Encrypt scan message).2.Rotors2.Map = machine.Rotors2.Map) ∧
    ((machine.Encrypt scan message).2.Reflector.Letter = machine.Reflector.Letter ∧
      (machine.Encrypt scan message).2.Reflector.Map = machine.Reflector.Map) ∧
    (machine.Encrypt scan message).2.Plugs = machine.Plugs := by
  rw [Encrypt_machine]
  obtain ⟨⟨a1, a2, a3⟩, ⟨a4, a5, a6⟩, ⟨a7, a8, a9⟩, a10, a11⟩ :=
    iterate_rotate_frame (letterCount message) machine
  exact ⟨⟨a1.symm, a2.symm, a3.symm⟩, ⟨a4.symm, a5.symm, a6.symm⟩,
    ⟨a7.symm, a8.symm, a9.symm⟩, ⟨congrArg Reflector.Letter a10.symm,
      congrArg Reflector.Map a10.symm⟩, a11.symm⟩

/-- C20 (offset range invariant). If the three rotor offsets are in `0..25` before `Encrypt`
they are in `0..25` after it, for any message; and from any integer offsets, after `Encrypt`
each offset is either the one the machine started with (it was never written) or in `0..25`,
rotor 1's offset being in `0..25` as soon as the message has one valid letter. -/
theorem offset_range_invariant (scan : ScanOrder) (machine : MachineState)
    (message : List Char) :
    (InRange26 machine.Rotors0.Position ∧ InRange26 machine.Rotors1.Position ∧
        InRange26 machine.Rotors2.Position →
      InRange26 (machine.Encrypt scan message).2.Rotors0.Position ∧
        InRange26 (machine.Encrypt scan message).2.Rotors1.Position ∧
        InRange26 (machine.Encrypt scan message).2.Rotors2.Position) ∧
    ((machine.Encrypt scan message).2.Rotors0.Position = machine.Rotors0.Position ∨
      InRange26 (machine.Encrypt scan message).2.Rotors0.Position) ∧
    ((machine.Encrypt scan message).2.Rotors1.Position = machine.Rotors1.Position ∨
      InRange26 (machine.Encrypt scan message).2.Rotors1.Position) ∧
    ((machine.Encrypt scan message).2.Rotors2.Position = machine.Rotors2.Position ∨
      InRange26 (machine.Encrypt scan message).2.Rotors2.Position) ∧
    (1 ≤ letterCount message →
      InRange26 (machine.Encrypt scan message).2.Rotors0.Position) := by
  rw [Encrypt_machine]
  obtain ⟨h1, h0, h1', h2⟩ := iterate_rotate_range (letterCount message) machine
  refine ⟨?_, h0, h1', h2, h1⟩
  rintro ⟨r0, r1, r2⟩
  refine ⟨?_, ?_, ?_⟩
  · rcases h0 with h | h
    · rw [h]; exact r0
    · exact h
  · rcases h1' with h | h
    · rw [h]; exact r1
    · exact h
  · rcases h2 with h | h
    · rw [h]; exact r2
    · exact h

/-! ## Well-formed machines under rotation -/

theorem InRange26.offsetSafe {p : Int} (h : InRange26 p) : OffsetSafe p :=
  OffsetSafe.of_range h

theorem rotate_wellFormed {machine : MachineState} (wf : WellFormed machine) :
    WellFormed (rotate machine) := by
  obtain ⟨⟨-, -, m0⟩, ⟨-, -, m1⟩, ⟨-, -, m2⟩, hr, hp⟩ := rotate_frame machine
  exact
    { map0 := m0 ▸ wf.map0
      map1 := m1 ▸ wf.map1
      map2 := m2 ▸ wf.map2
      pos0 := (rotate_Position0 machine).offsetSafe
      pos1 := by
        rcases rotate_Position1 machine with h | h
        · rw [h]; exact wf.pos1
        · exact h.offsetSafe
      pos2 := by
        rcases rotate_Position2 machine with h | h
        · rw [h]; exact wf.pos2
        · exact h.offsetSafe
      reflector := hr ▸ wf.reflector
      involution := hr ▸ wf.involution
      plugs := hp ▸ wf.plugs }

theorem ScanOrder.Legit.after_legit {scan : ScanOrder} (h : scan.Legit) (n : Nat) :
    (scan.after n).Legit := fun k m => h (n + k) m

/-- Enciphering the cipher text of an all-letter message from the same state gives the message
back and ends in the same state. -/
theorem Encrypt_Encrypt (message : List Char) :
    ∀ (scan scan' : ScanOrder) (machine : MachineState), WellFormed machine →
      scan.Legit → scan'.Legit → (∀ c ∈ message, isLetter c) →
      machine.Encrypt scan' (machine.Encrypt scan message).1 =
        (message, (machine.Encrypt scan message).2) := by
  induction message with
  | nil => intro scan scan' machine _ _ _ _; rfl
  | cons letter rest ih =>
    intro scan scan' machine wf hs hs' hl
    have hletter : isLetter letter := hl letter (List.mem_cons_self _ _)
    have hrest : ∀ c ∈ rest, isLetter c := fun c hc => hl c (List.mem_cons_of_mem _ hc)
    rw [Encrypt_cons_valid _ _ _ hletter]
    simp only
    rw [Encrypt_cons_valid _ _ _ (encipher_isLetter wf scan 0 letter),
      encipher_encipher wf hs hs' 0 0 hletter,
      ih (scan.after 3) (scan'.after 3) (rotate machine) (rotate_wellFormed wf) (hs.after_legit 3)
        (hs'.after_legit 3) hrest]

/-- The rotor path of a well-formed machine has no fixed point in `0..25`. -/
theorem rotorPath_ne {machine : MachineState} (wf : WellFormed machine) {scan : ScanOrder}
    (hs : scan.Legit) (k : Nat) {i : Int} (hi : 0 ≤ i ∧ i ≤ 25) :
    rotorPath scan k machine i ≠ i := by
  intro h
  unfold rotorPath at h
  have h0 := congrArg machine.Rotors0.EncryptForward h
  rw [Rotor.forward_backward _ wf.map0 wf.pos0 (hs _ _) (Rotor.backward_range _ _ _)] at h0
  have h1 := congrArg machine.Rotors1.EncryptForward h0
  rw [Rotor.forward_backward _ wf.map1 wf.pos1 (hs _ _) (Rotor.backward_range _ _ _)] at h1
  have h2 := congrArg machine.Rotors2.EncryptForward h1
  rw [Rotor.forward_backward _ wf.map2 wf.pos2 (hs _ _)
    (wf.reflector.value_range (Rotor.forward_range _ _))] at h2
  exact (wf.involution _ (Rotor.forward_range _ _)).1 h2

/-- A well-formed machine never enciphers a letter to itself. -/
theorem encipher_ne {machine : MachineState} (wf : WellFormed machine) {scan : ScanOrder}
    (hs : scan.Legit) (k : Nat) {letter : Char} (hl : isLetter letter) :
    encipher scan k machine letter ≠ letter := by
  intro h
  rw [encipher_eq] at h
  have h1 := congrArg (plugSwap machine.Plugs) h
  rw [wf.plugs.swap_swap] at h1
  have h2 := congrArg (goIndexInt letterLookup) h1
  rw [index_reverse (rotorPath_range _ _ _ _)] at h2
  exact rotorPath_ne wf hs k (index_range (wf.plugs.swap_isLetter hl)) h2

/-- C18 (whole-message reciprocity). On a machine built from a valid configuration, if
`Encrypt` of a message of letters `A..Z` returns `c` from state `S`, then `Encrypt` of `c`
from the same state `S` returns the message, whatever orders the backward scans take. -/
theorem message_reciprocity (s : setting) (machine : MachineState) (scan scan' : ScanOrder)
    (message : List Char) (hs : ValidConfig s) (hm : loadSettingsFromBytes s = .ok machine)
    (hscan : scan.Legit) (hscan' : scan'.Legit) (hletters : ∀ c ∈ message, isLetter c) :
    (machine.Encrypt scan' (machine.Encrypt scan message).1).1 = message := by
  obtain ⟨m, hm', wf, -⟩ := loadSettingsFromBytes_valid hs
  rw [hm] at hm'
  cases hm'
  rw [Encrypt_Encrypt message scan scan' machine wf hscan hscan' hletters]

theorem message_reciprocity_witness :
    (demoMachine.Encrypt insertionScan
      (demoMachine.Encrypt insertionScan "ENIGMA".toList).1).1 = "ENIGMA".toList :=
  message_reciprocity demoSetting demoMachine insertionScan insertionScan "ENIGMA".toList
    (by decide) rfl insertionScan_legit insertionScan_legit (by decide)

/-- C19 (no letter enciphers to itself). On a machine built from a valid configuration
(rotor numbers in `1..5`, offsets in `0..25`, reflector `A`, `B` or `C`, plug pairs of
uppercase letters with no letter in two pairs), `Encrypt` of a single letter `L` of `A..Z`
returns a single letter other than `L`. -/
theorem no_self_encipherment (s : setting) (machine : MachineState) (scan : ScanOrder)
    (L : Char) (hs : ValidConfig s) (hm : loadSettingsFromBytes s = .ok machine)
    (hscan : scan.Legit) (hL : isLetter L) :
    ∃ L', (machine.Encrypt scan [L]).1 = [L'] ∧ isLetter L' ∧ L' ≠ L := by
  obtain ⟨m, hm', wf, -⟩ := loadSettingsFromBytes_valid hs
  rw [hm] at hm'
  cases hm'
  refine ⟨encipher scan 0 machine L, ?_, encipher_isLetter wf scan 0 L,
    encipher_ne wf hscan 0 hL⟩
  rw [Encrypt_cons_valid _ _ _ hL, Encrypt_nil]

theorem no_self_encipherment_witness :
    ∃ L', (demoMachine.Encrypt insertionScan ['Q']).1 = [L'] ∧ isLetter L' ∧ L' ≠ 'Q' :=
  no_self_encipherment demoSetting demoMachine insertionScan 'Q' (by decide) rfl
    insertionScan_legit (by decide)

/-! ## Checked lookups on operable machines -/

theorem goIndexInt_of_goLookup {K : Type} [DecidableEq K] {m : GoMap K Int} {k : K} {v : Int}
    (h : goLookup m k = some v) : goIndexInt m k = v := by
  simp only [goIndexInt, h]

theorem IsPermutation26.goLookup_eq {m : GoMap Int Int} (hm : IsPermutation26 m) {x : Int}
    (hx : 0 ≤ x ∧ x ≤ 25) : goLookup m x = some (goIndexInt m x) := by
  obtain ⟨v, hv, -⟩ := hm.lookup hx
  rw [goIndexInt_of_goLookup hv, hv]

theorem reverse_lookup_spec :
    ∀ i ∈ positions,
      goLookup reverseLetterLookup i = some (goIndexRune reverseLetterLookup i) := by
  decide

theorem Rotor.forwardChecked_eq (r : Rotor) (hm : IsPermutation26 r.Map) (x : Int) :
    r.EncryptForwardChecked x = some (r.EncryptForward x) := by
  simp only [Rotor.EncryptForwardChecked, Rotor.EncryptForward,
    hm.goLookup_eq (mod26_range (wrap64 (x + r.Position)))]

theorem Rotor.backwardChecked_eq (r : Rotor) (hm : IsPermutation26 r.Map)
    {order : List (Int × Int)} (hord : order.Perm r.Map) (y : Int) :
    r.EncryptBackwardChecked order y = some (r.EncryptBackward order y) := by
  obtain ⟨k, hk⟩ := hm.preimage (mod26_range (wrap64 (y + r.Position)))
  simp only [Rotor.EncryptBackwardChecked, Rotor.EncryptBackward, hm.scan_finds hord hk]

theorem Operable.plug_isLetter {machine : MachineState} (op : Operable machine) {c : Char}
    (hc : isLetter c) : isLetter (plugSwap machine.Plugs c) := by
  unfold plugSwap
  cases hl : goLookup machine.Plugs c with
  | none => exact hc
  | some b => exact op.plugs c b hl

theorem Operable.encipher_letter {machine : MachineState} (op : Operable machine)
    (scan : ScanOrder) (k : Nat) (letter : Char) : isLetter (encipher scan k machine letter) := by
  rw [encipher_eq]
  exact op.plug_isLetter (isLetter_reverse (rotorPath_range _ _ _ _))

/-- On an operable machine every lookup of the path of a valid letter finds its key. -/
theorem encipherChecked_eq {machine : MachineState} (op : Operable machine) {scan : ScanOrder}
    (hs : scan.Legit) (k : Nat) {letter : Char} (hl : isLetter letter) :
    encipherChecked scan k machine letter = some (encipher scan k machine letter) := by
  simp only [encipherChecked, encipher,
    goLookup_letterLookup_of_isLetter (op.plug_isLetter hl), Option.some_bind,
    Rotor.forwardChecked_eq _ op.map0, Rotor.forwardChecked_eq _ op.map1,
    Rotor.forwardChecked_eq _ op.map2,
    op.reflector.goLookup_eq (Rotor.forward_range _ _),
    Rotor.backwardChecked_eq _ op.map2 (hs _ _), Rotor.backwardChecked_eq _ op.map1 (hs _ _),
    Rotor.backwardChecked_eq _ op.map0 (hs _ _),
    reverse_lookup_spec _ (mem_positions.mpr (Rotor.backward_range _ _ _))]

theorem rotate_operable {machine : MachineState} (op : Operable machine) :
    Operable (rotate machine) := by
  obtain ⟨⟨-, -, m0⟩, ⟨-, -, m1⟩, ⟨-, -, m2⟩, hr, hp⟩ := rotate_frame machine
  exact
    { map0 := m0 ▸ op.map0
      map1 := m1 ▸ op.map1
      map2 := m2 ▸ op.map2
      reflector := hr ▸ op.reflector
      plugs := hp ▸ op.plugs }

theorem EncryptChecked_eq (message : List Char) :
    ∀ (scan : ScanOrder) (machine : MachineState), Operable machine → scan.Legit →
      machine.EncryptChecked scan message = some (machine.Encrypt scan message) ∧
      ∀ c ∈ (machine.Encrypt scan message).1, isLetter c := by
  induction message with
  | nil =>
    intro scan machine _ _
    exact ⟨rfl, fun c hc => absurd hc (List.not_mem_nil _)⟩
  | cons letter rest ih =>
    intro scan machine op hs
    by_cases hl : isLetter letter
    · obtain ⟨i1, i2⟩ := ih (scan.after 3) (rotate machine) (rotate_operable op)
        (hs.after_legit 3)
      rw [Encrypt_cons_valid _ _ _ hl]
      constructor
      · simp only [MachineState.EncryptChecked, goLookup_letterLookup_of_isLetter hl,
          encipherChecked_eq op hs 0 hl, i1]
      · intro c hc
        rcases List.mem_cons.mp hc with h | h
        · rw [h]; exact op.encipher_letter scan 0 letter
        · exact i2 c h
    · obtain ⟨i1, i2⟩ := ih scan machine op hs
      rw [Encrypt_cons_invalid _ _ _ hl]
      constructor
      · simp only [MachineState.EncryptChecked, goLookup_letterLookup_of_not_isLetter hl, i1]
      · exact i2

theorem loadPlugs_letters (plugs : List String) :
    ∀ acc : GoMap Char Char, (∀ a b, goLookup acc a = some b → isLetter b) →
      (∀ plug ∈ plugs, ValidPlug plug) →
      ∃ m, loadPlugs acc plugs = .ok m ∧ ∀ a b, goLookup m a = some b → isLetter b := by
  induction plugs with
  | nil => intro acc h _; exact ⟨acc, rfl, h⟩
  | cons plug rest ih =>
    intro acc hacc hvalid
    obtain ⟨hlen, hletters⟩ := hvalid plug (List.mem_cons_self _ _)
    obtain ⟨x, y, hxy⟩ : ∃ x y, plug.toList = [x, y] := by
      match hp : plug.toList, hlen with
      | [x, y], _ => exact ⟨x, y, rfl⟩
    have hx : isLetter x := hletters x (by rw [hxy]; simp)
    have hy : isLetter y := hletters y (by rw [hxy]; simp)
    have hstep : loadPlugs acc (plug :: rest) =
        loadPlugs (goInsert (goInsert acc x y) y x) rest := by
      simp only [loadPlugs, hxy]
    rw [hstep]
    apply ih _ _ (fun p hp => hvalid p (List.mem_cons_of_mem _ hp))
    intro a b hab
    rw [goLookup_goInsert, goLookup_goInsert] at hab
    split_ifs at hab with h1 h2
    · cases hab; exact hx
    · cases hab; exact hy
    · exact hacc a b hab

/-- A configuration that is valid up to letters shared between plug pairs loads without
panic, into an operable machine. -/
theorem loadSettingsFromBytes_operable {s : setting} (hs : ValidConfigLoose s) :
    ∃ machine, loadSettingsFromBytes s = .ok machine ∧ Operable machine ∧
      machine.Rotors0 = loadRotor s.Rotors0 ∧ machine.Rotors1 = loadRotor s.Rotors1 ∧
      machine.Rotors2 = loadRotor s.Rotors2 := by
  obtain ⟨h0, h1, h2, hr, hp⟩ := hs
  obtain ⟨plugs, hload, hval⟩ := loadPlugs_letters s.Plugs []
    (fun a b h => by simp [goLookup] at h) hp
  refine ⟨{ Rotors0 := loadRotor s.Rotors0, Rotors1 := loadRotor s.Rotors1,
            Rotors2 := loadRotor s.Rotors2,
            Reflector := Reflector.LoadMap { Letter := s.Reflector, Map := [] },
            Plugs := plugs }, by simp only [loadSettingsFromBytes, hload], ?_, rfl, rfl, rfl⟩
  exact
    { map0 := loadRotor_perm h0.1
      map1 := loadRotor_perm h1.1
      map2 := loadRotor_perm h2.1
      reflector := (Reflector.LoadMap_spec { Letter := s.Reflector, Map := [] } hr).1
      plugs := hval }

/-- C15 (encryption has no failing path on a valid machine). On a machine built from a valid
configuration (rotor numbers in `1..5`, positions in `1..26`, reflector `A`, `B` or `C`, plug
pairs of two uppercase letters, shared between pairs or not) and for every message, every
table lookup made by `Encrypt` finds its key: the run with checked lookups returns what
`Encrypt` returns, and every character of the cipher text is in `A..Z`. -/
theorem encrypt_no_failing_path (s : setting) (machine : MachineState) (scan : ScanOrder)
    (message : List Char) (hs : ValidConfigLoose s)
    (hm : loadSettingsFromBytes s = .ok machine) (hscan : scan.Legit) :
    machine.EncryptChecked scan message = some (machine.Encrypt scan message) ∧
      ∀ c ∈ (machine.Encrypt scan message).1, isLetter c := by
  obtain ⟨m, hm', op, -⟩ := loadSettingsFromBytes_operable hs
  rw [hm] at hm'
  cases hm'
  exact EncryptChecked_eq message scan machine op hscan

theorem encrypt_no_failing_path_witness :
    reusedLetterMachine.EncryptChecked insertionScan "ATTACK AT DAWN".toList =
        some (reusedLetterMachine.Encrypt insertionScan "ATTACK AT DAWN".toList) ∧
      ∀ c ∈ (reusedLetterMachine.Encrypt insertionScan "ATTACK AT DAWN".toList).1,
        isLetter c :=
  encrypt_no_failing_path reusedLetterSetting reusedLetterMachine insertionScan
    "ATTACK AT DAWN".toList (by decide) rfl insertionScan_legit

/-! ## The plug board around the rotor path -/

theorem rotate_withPlugs (machine : MachineState) (plugs : GoMap Char Char) :
    rotate (withPlugs machine plugs) = withPlugs (rotate machine) plugs := by
  simp only [rotate, withPlugs]
  split_ifs <;> rfl

theorem encipher_withPlugs (scan : ScanOrder) (k : Nat) (machine : MachineState)
    (letter : Char) :
    encipher scan k machine letter =
      plugSwap machine.Plugs
        (encipher scan k (withPlugs machine []) (plugSwap machine.Plugs letter)) := rfl

/-- With all plug values letters, `Encrypt` of an all-letter message is the plug board applied
to what the machine without plugs returns for the plugged message; the machine left is the
same up to the plug map. -/
theorem Encrypt_withPlugs (message : List Char) :
    ∀ (scan : ScanOrder) (machine : MachineState),
      (∀ a b, goLookup machine.Plugs a = some b → isLetter b) →
      (∀ c ∈ message, isLetter c) →
      machine.Encrypt scan message =
        (((withPlugs machine []).Encrypt scan
            (message.map (plugSwap machine.Plugs))).1.map (plugSwap machine.Plugs),
          withPlugs ((withPlugs machine []).Encrypt scan
            (message.map (plugSwap machine.Plugs))).2 machine.Plugs) := by
  induction message with
  | nil => intro scan machine _ _; rfl
  | cons letter rest ih =>
    intro scan machine hp hl
    have hletter : isLetter letter := hl letter (List.mem_cons_self _ _)
    have hrest : ∀ c ∈ rest, isLetter c := fun c hc => hl c (List.mem_cons_of_mem _ hc)
    have hswap : isLetter (plugSwap machine.Plugs letter) := by
      unfold plugSwap
      cases hc : goLookup machine.Plugs letter with
      | none => exact hletter
      | some b => exact hp letter b hc
    have hplugs : (rotate machine).Plugs = machine.Plugs := rotate_Plugs machine
    have ih' := ih (scan.after 3) (rotate machine) (by rw [hplugs]; exact hp) hrest
    rw [hplugs] at ih'
    rw [Encrypt_cons_valid _ _ _ hletter, List.map_cons, Encrypt_cons_valid _ _ _ hswap,
      rotate_withPlugs, ih', encipher_withPlugs]
    rfl

/-- C16 (the plug board is applied once before and once after the rotor path). For a machine
`M` built from a valid configuration with plug board `P` (pairs of two uppercase letters),
`M0` the same machine with an empty plug map, and a message of letters `A..Z`, the cipher
text of `M` is `P` applied letterwise to the cipher text `M0` returns for `P` applied
letterwise to the message, `P` leaving unpaired letters unchanged; and the two runs leave the
same rotors. -/
theorem plugboard_around_rotors (s : setting) (machine : MachineState) (scan : ScanOrder)
    (message : List Char) (hs : ValidConfigLoose s)
    (hm : loadSettingsFromBytes s = .ok machine) (hletters : ∀ c ∈ message, isLetter c) :
    (machine.Encrypt scan message).1 =
        ((withPlugs machine []).Encrypt scan
          (message.map (plugSwap machine.Plugs))).1.map (plugSwap machine.Plugs) ∧
      (machine.Encrypt scan message).2.Rotors0 =
        ((withPlugs machine []).Encrypt scan
          (message.map (plugSwap machine.Plugs))).2.Rotors0 ∧
      (machine.Encrypt scan message).2.Rotors1 =
        ((withPlugs machine []).Encrypt scan
          (message.map (plugSwap machine.Plugs))).2.Rotors1 ∧
      (machine.Encrypt scan message).2.Rotors2 =
        ((withPlugs machine []).Encrypt scan
          (message.map (plugSwap machine.Plugs))).2.Rotors2 ∧
      (∀ c, goLookup machine.Plugs c = none → plugSwap machine.Plugs c = c) := by
  obtain ⟨m, hm', op, -⟩ := loadSettingsFromBytes_operable hs
  rw [hm] at hm'
  cases hm'
  rw [Encrypt_withPlugs message scan machine op.plugs hletters]
  refine ⟨rfl, rfl, rfl, rfl, ?_⟩
  intro c hc
  simp only [plugSwap, hc]

theorem plugboard_around_rotors_witness :
    (abMachine.Encrypt insertionScan "ABC".toList).1 =
        ((withPlugs abMachine []).Encrypt insertionScan
          ("ABC".toList.map (plugSwap abMachine.Plugs))).1.map (plugSwap abMachine.Plugs) ∧
      (abMachine.Encrypt insertionScan "ABC".toList).2.Rotors0 =
        ((withPlugs abMachine []).Encrypt insertionScan
          ("ABC".toList.map (plugSwap abMachine.Plugs))).2.Rotors0 ∧
      (abMachine.Encrypt insertionScan "ABC".toList).2.Rotors1 =
        ((withPlugs abMachine []).Encrypt insertionScan
          ("ABC".toList.map (plugSwap abMachine.Plugs))).2.Rotors1 ∧
      (abMachine.Encrypt insertionScan "ABC".toList).2.Rotors2 =
        ((withPlugs abMachine []).Encrypt insertionScan
          ("ABC".toList.map (plugSwap abMachine.Plugs))).2.Rotors2 ∧
      (∀ c, goLookup abMachine.Plugs c = none → plugSwap abMachine.Plugs c = c) :=
  plugboard_around_rotors abSetting abMachine insertionScan "ABC".toList (by decide) rfl
    (by decide)

/-! ## Offsets congruent modulo 26 -/

theorem LoadedWiring.value_bound {m : GoMap Int Int} (hm : LoadedWiring m) (k : Int) :
    0 ≤ goIndexInt m k ∧ goIndexInt m k ≤ 25 := by
  rcases hm with hm | hm
  · cases hl : goLookup m k with
    | none => simp only [goIndexInt, hl]; decide
    | some v =>
      simp only [goIndexInt, hl]
      exact (hm.key_range (mem_of_goLookup hl)).2
  · subst hm
    simp only [goIndexInt, goLookup]
    decide

theorem letterLookup_value_bound (c : Char) :
    0 ≤ goIndexInt letterLookup c ∧ goIndexInt letterLookup c ≤ 25 := by
  by_cases h : isLetter c
  · exact index_range h
  · simp only [goIndexInt, goLookup_letterLookup_of_not_isLetter h]
    decide

/-- The forward pass depends on the offset only modulo 26, as long as nothing overflows. -/
theorem Rotor.forward_congr (r r' : Rotor) (hmap : r.Map = r'.Map) (hw : LoadedWiring r.Map)
    (hc : r.Position % 26 = r'.Position % 26) (hp : OffsetSafe r.Position)
    (hp' : OffsetSafe r'.Position) {x : Int} (hx : 0 ≤ x ∧ x ≤ 25) :
    r.EncryptForward x = r'.EncryptForward x := by
  unfold OffsetSafe at hp hp'
  have h1 : wrap64 (x + r.Position) = x + r.Position := wrap64_of_range (by omega) (by omega)
  have h1' : wrap64 (x + r'.Position) = x + r'.Position :=
    wrap64_of_range (by omega) (by omega)
  have hkey : (x + r.Position) % 26 = (x + r'.Position) % 26 := by omega
  have hv := hw.value_bound ((x + r'.Position) % 26)
  simp only [Rotor.EncryptForward, mod26_eq, h1, h1', hkey, ← hmap]
  generalize goIndexInt r.Map ((x + r'.Position) % 26) = v at hv
  rw [wrap64_of_range (by omega) (by omega), wrap64_of_range (by omega) (by omega)]
  omega

/-- The backward pass depends on the offset only modulo 26 and not on the scan order, as long
as nothing overflows. -/
theorem Rotor.backward_congr (r r' : Rotor) (hmap : r.Map = r'.Map) (hw : LoadedWiring r.Map)
    (hc : r.Position % 26 = r'.Position % 26) (hp : OffsetSafe r.Position)
    (hp' : OffsetSafe r'.Position) {order order' : List (Int × Int)}
    (hord : order.Perm r.Map) (hord' : order'.Perm r'.Map) {y : Int} (hy : 0 ≤ y ∧ y ≤ 25) :
    r.EncryptBackward order y = r'.EncryptBackward order' y := by
  unfold OffsetSafe at hp hp'
  have h1 : wrap64 (y + r.Position) = y + r.Position := wrap64_of_range (by omega) (by omega)
  have h1' : wrap64 (y + r'.Position) = y + r'.Position :=
    wrap64_of_range (by omega) (by omega)
  have hkey : (y + r.Position) % 26 = (y + r'.Position) % 26 := by omega
  rw [← hmap] at hord'
  simp only [Rotor.EncryptBackward, mod26_eq, h1, h1', hkey]
  have hi : 0 ≤ (y + r'.Position) % 26 ∧ (y + r'.Position) % 26 ≤ 25 := by omega
  generalize (y + r'.Position) % 26 = i at hi
  rcases hw with hw | hw
  · obtain ⟨k, hk⟩ := hw.preimage hi
    have hkr := (hw.key_range hk).1
    rw [hw.scan_finds hord hk, hw.scan_finds hord' hk]
    simp only
    rw [wrap64_of_range (by omega) (by omega), wrap64_of_range (by omega) (by omega)]
    omega
  · rw [hw] at hord hord'
    rw [List.Perm.eq_nil hord, List.Perm.eq_nil hord']
    simp only [List.find?_nil]
    rw [wrap64_of_range (by omega) (by omega), wrap64_of_range (by omega) (by omega)]
    omega

theorem Congruent.encipher_congr {a b : MachineState} (h : Congruent a b) {scan scan' : ScanOrder}
    (hs : scan.Legit) (hs' : scan'.Legit) (k k' : Nat) (letter : Char) :
    encipher scan k a letter = encipher scan' k' b letter := by
  obtain ⟨⟨-, -, m0⟩, ⟨-, -, m1⟩, ⟨-, -, m2⟩, hr, hpl⟩ := h.same
  have e0 : ∀ x : Int, 0 ≤ x ∧ x ≤ 25 → a.Rotors0.EncryptForward x = b.Rotors0.EncryptForward x :=
    fun x hx => Rotor.forward_congr _ _ m0 h.wiring0 h.cong0 h.safe0.1 h.safe0.2 hx
  have e1 : ∀ x : Int, 0 ≤ x ∧ x ≤ 25 → a.Rotors1.EncryptForward x = b.Rotors1.EncryptForward x :=
    fun x hx => Rotor.forward_congr _ _ m1 h.wiring1 h.cong1 h.safe1.1 h.safe1.2 hx
  have e2 : ∀ x : Int, 0 ≤ x ∧ x ≤ 25 → a.Rotors2.EncryptForward x = b.Rotors2.EncryptForward x :=
    fun x hx => Rotor.forward_congr _ _ m2 h.wiring2 h.cong2 h.safe2.1 h.safe2.2 hx
  have b2 : ∀ y : Int, 0 ≤ y ∧ y ≤ 25 →
      a.Rotors2.EncryptBackward (scan k a.Rotors2.Map) y =
        b.Rotors2.EncryptBackward (scan' k' b.Rotors2.Map) y :=
    fun y hy => Rotor.backward_congr _ _ m2 h.wiring2 h.cong2 h.safe2.1 h.safe2.2
      (hs _ _) (hs' _ _) hy
  have b1 : ∀ y : Int, 0 ≤ y ∧ y ≤ 25 →
      a.Rotors1.EncryptBackward (scan (k + 1) a.Rotors1.Map) y =
        b.Rotors1.EncryptBackward (scan' (k' + 1) b.Rotors1.Map) y :=
    fun y hy => Rotor.backward_congr _ _ m1 h.wiring1 h.cong1 h.safe1.1 h.safe1.2
      (hs _ _) (hs' _ _) hy
  have b0 : ∀ y : Int, 0 ≤ y ∧ y ≤ 25 →
      a.Rotors0.EncryptBackward (scan (k + 2) a.Rotors0.Map) y =
        b.Rotors0.EncryptBackward (scan' (k' + 2) b.Rotors0.Map) y :=
    fun y hy => Rotor.backward_congr _ _ m0 h.wiring0 h.cong0 h.safe0.1 h.safe0.2
      (hs _ _) (hs' _ _) hy
  simp only [encipher]
  rw [← hpl, ← hr, e0 _ (letterLookup_value_bound _), e1 _ (Rotor.forward_range _ _),
    e2 _ (Rotor.forward_range _ _), b2 _ (h.reflector.value_bound _),
    b1 _ (Rotor.backward_range _ _ _), b0 _ (Rotor.backward_range _ _ _)]

theorem Congruent.rotate_congr {a b : MachineState} (h : Congruent a b) :
    Congruent (rotate a) (rotate b) := by
  obtain ⟨⟨n0, t0, m0⟩, ⟨n1, t1, m1⟩, ⟨n2, t2, m2⟩, hr, hpl⟩ := h.same
  obtain ⟨⟨-, -, am0⟩, ⟨-, -, am1⟩, ⟨-, -, am2⟩, ahr, -⟩ := rotate_frame a
  have sa0 := h.safe0.1
  have sb0 := h.safe0.2
  have sa1 := h.safe1.1
  have sb1 := h.safe1.2
  have sa2 := h.safe2.1
  have sb2 := h.safe2.2
  have c0 := h.cong0
  have c1 := h.cong1
  have c2 := h.cong2
  unfold OffsetSafe at sa0 sb0 sa1 sb1 sa2 sb2
  have wa0 : wrap64 (a.Rotors0.Position + 1) = a.Rotors0.Position + 1 :=
    wrap64_of_range (by omega) (by omega)
  have wb0 : wrap64 (b.Rotors0.Position + 1) = b.Rotors0.Position + 1 :=
    wrap64_of_range (by omega) (by omega)
  have wa1 : wrap64 (a.Rotors1.Position + 1) = a.Rotors1.Position + 1 :=
    wrap64_of_range (by omega) (by omega)
  have wb1 : wrap64 (b.Rotors1.Position + 1) = b.Rotors1.Position + 1 :=
    wrap64_of_range (by omega) (by omega)
  have wa2 : wrap64 (a.Rotors2.Position + 1) = a.Rotors2.Position + 1 :=
    wrap64_of_range (by omega) (by omega)
  have wb2 : wrap64 (b.Rotors2.Position + 1) = b.Rotors2.Position + 1 :=
    wrap64_of_range (by omega) (by omega)
  have s0 : (a.Rotors0.Position + 1) % 26 = (b.Rotors0.Position + 1) % 26 := by omega
  have s1 : (a.Rotors1.Position + 1) % 26 = (b.Rotors1.Position + 1) % 26 := by omega
  have s2 : (a.Rotors2.Position + 1) % 26 = (b.Rotors2.Position + 1) % 26 := by omega
  have p0a : (rotate a).Rotors0.Position = (b.Rotors0.Position + 1) % 26 := by
    rw [rotate_Rotors0, mod26_eq, wa0, s0]
  have p0b : (rotate b).Rotors0.Position = (b.Rotors0.Position + 1) % 26 := by
    rw [rotate_Rotors0, mod26_eq, wb0]
  have p1a : (rotate a).Rotors1.Position =
      if (b.Rotors0.Position + 1) % 26 = b.Rotors0.TurnPosition
        then (b.Rotors1.Position + 1) % 26 else a.Rotors1.Position := by
    rw [rotate_Rotors1, mod26_eq, mod26_eq, wa0, wa1, s0, s1, t0]
    split_ifs <;> rfl
  have p1b : (rotate b).Rotors1.Position =
      if (b.Rotors0.Position + 1) % 26 = b.Rotors0.TurnPosition
        then (b.Rotors1.Position + 1) % 26 else b.Rotors1.Position := by
    rw [rotate_Rotors1, mod26_eq, mod26_eq, wb0, wb1]
    split_ifs <;> rfl
  have p2a : (rotate a).Rotors2.Position =
      if (b.Rotors0.Position + 1) % 26 = b.Rotors0.TurnPosition ∧
          (b.Rotors1.Position + 1) % 26 = b.Rotors1.TurnPosition
        then (b.Rotors2.Position + 1) % 26 else a.Rotors2.Position := by
    rw [rotate_Rotors2, mod26_eq, mod26_eq, mod26_eq, wa0, wa1, wa2, s0, s1, s2, t0, t1]
    split_ifs <;> rfl
  have p2b : (rotate b).Rotors2.Position =
      if (b.Rotors0.Position + 1) % 26 = b.Rotors0.TurnPosition ∧
          (b.Rotors1.Position + 1) % 26 = b.Rotors1.TurnPosition
        then (b.Rotors2.Position + 1) % 26 else b.Rotors2.Position := by
    rw [rotate_Rotors2, mod26_eq, mod26_eq, mod26_eq, wb0, wb1, wb2]
    split_ifs <;> rfl
  exact
    { same := by
        obtain ⟨⟨x0, x1, x2⟩, ⟨x3, x4, x5⟩, ⟨x6, x7, x8⟩, x9, x10⟩ := rotate_frame a
        obtain ⟨⟨y0, y1, y2⟩, ⟨y3, y4, y5⟩, ⟨y6, y7, y8⟩, y9, y10⟩ := rotate_frame b
        exact ⟨⟨x0.symm.trans (n0.trans y0), x1.symm.trans (t0.trans y1),
            x2.symm.trans (m0.trans y2)⟩,
          ⟨x3.symm.trans (n1.trans y3), x4.symm.trans (t1.trans y4),
            x5.symm.trans (m1.trans y5)⟩,
          ⟨x6.symm.trans (n2.trans y6), x7.symm.trans (t2.trans y7),
            x8.symm.trans (m2.trans y8)⟩,
          x9.symm.trans (hr.trans y9), x10.symm.trans (hpl.trans y10)⟩
      cong0 := by rw [p0a, p0b]
      cong1 := by rw [p1a, p1b]; split_ifs <;> first | rfl | exact c1
      cong2 := by rw [p2a, p2b]; split_ifs <;> first | rfl | exact c2
      safe0 := by
        rw [p0a, p0b]; unfold OffsetSafe; omega
      safe1 := by
        rw [p1a, p1b]; unfold OffsetSafe; split_ifs <;> omega
      safe2 := by
        rw [p2a, p2b]; unfold OffsetSafe; split_ifs <;> omega
      wiring0 := am0 ▸ h.wiring0
      wiring1 := am1 ▸ h.wiring1
      wiring2 := am2 ▸ h.wiring2
      reflector := ahr ▸ h.reflector }

/-- Congruent machines return the same cipher text, whatever the scan orders. -/
theorem Congruent.Encrypt_congr (message : List Char) :
    ∀ (scan scan' : ScanOrder) (a b : MachineState), Congruent a b → scan.Legit →
      scan'.Legit → (a.Encrypt scan message).1 = (b.Encrypt scan' message).1 := by
  induction message with
  | nil =>
    intro scan scan' a b _ _ _
    rw [Encrypt_nil, Encrypt_nil]
  | cons letter rest ih =>
    intro scan scan' a b h hs hs'
    by_cases hl : isLetter letter
    · rw [Encrypt_cons_valid _ _ _ hl, Encrypt_cons_valid _ _ _ hl]
      simp only
      rw [h.encipher_congr hs hs' 0 0 letter,
        ih (scan.after 3) (scan'.after 3) (rotate a) (rotate b) h.rotate_congr (hs.after_legit 3)
          (hs'.after_legit 3)]
    · rw [Encrypt_cons_invalid _ _ _ hl, Encrypt_cons_invalid _ _ _ hl]
      exact ih scan scan' a b h hs hs'

theorem loadSettingsFromBytes_ok {s : setting} {machine : MachineState}
    (h : loadSettingsFromBytes s = .ok machine) :
    machine.Rotors0 = loadRotor s.Rotors0 ∧ machine.Rotors1 = loadRotor s.Rotors1 ∧
      machine.Rotors2 = loadRotor s.Rotors2 ∧
      machine.Reflector = Reflector.LoadMap { Letter := s.Reflector, Map := [] } ∧
      loadPlugs [] s.Plugs = .ok machine.Plugs := by
  unfold loadSettingsFromBytes at h
  cases hp : loadPlugs [] s.Plugs with
  | error e => rw [hp] at h; cases h
  | ok plugs =>
    rw [hp] at h
    cases h
    exact ⟨rfl, rfl, rfl, rfl, rfl⟩

theorem loadRotor_wiring (rotor : rotorSetting) : LoadedWiring (loadRotor rotor).Map := by
  by_cases h : 1 ≤ rotor.Number ∧ rotor.Number ≤ 5
  · exact Or.inl (loadRotor_perm h)
  · exact Or.inr (loadRotor_unknown h).1

theorem reflector_wiring (letter : String) :
    LoadedWiring (Reflector.LoadMap { Letter := letter, Map := [] }).Map := by
  by_cases h : letter = "A" ∨ letter = "B" ∨ letter = "C"
  · exact Or.inl (Reflector.LoadMap_spec { Letter := letter, Map := [] } h).1
  · exact Or.inr (reflector_unknown h)

theorem loadRotor_same {r r' : rotorSetting} (h : r.Number = r'.Number) :
    (loadRotor r).Number = (loadRotor r').Number ∧
      (loadRotor r).TurnPosition = (loadRotor r').TurnPosition ∧
      (loadRotor r).Map = (loadRotor r').Map := by
  simp only [loadRotor, Rotor.LoadMap, h]
  split_ifs <;> exact ⟨rfl, rfl, rfl⟩

theorem loadRotor_offset_safe {r : rotorSetting} (h : PositionSafe r.Position) :
    (loadRotor r).Position = r.Position - 1 ∧ OffsetSafe (loadRotor r).Position := by
  unfold PositionSafe at h
  have hw : wrap64 (r.Position - 1) = r.Position - 1 := wrap64_of_range (by omega) (by omega)
  rw [loadRotor_Position, hw]
  unfold OffsetSafe
  omega

/-- C17, as claimed, fails near the bounds of the Go `int`: the first positions `2^63 - 1` and
`2^63 - 27` are congruent modulo 26 and the configurations differ in nothing else, but the
first stored offset, `2^63 - 2`, overflows in `input + Position`, and the letter `A` is
enciphered to `P` by one machine and to `I` by the other. -/
theorem wrap_fails_on_overflow :
    hugeSetting.Rotors0.Position % 26 = hugeSetting'.Rotors0.Position % 26 ∧
      hugeSetting.Rotors0.Number = hugeSetting'.Rotors0.Number ∧
      hugeSetting.Rotors1 = hugeSetting'.Rotors1 ∧ hugeSetting.Rotors2 = hugeSetting'.Rotors2 ∧
      hugeSetting.Reflector = hugeSetting'.Reflector ∧
      hugeSetting.Plugs = hugeSetting'.Plugs ∧
      loadSettingsFromBytes hugeSetting = .ok hugeMachine ∧
      loadSettingsFromBytes hugeSetting' = .ok hugeMachine' ∧
      hugeMachine.Rotors0.Position = 9223372036854775806 ∧
      (hugeMachine.Encrypt insertionScan ['A']).1 = ['P'] ∧
      (hugeMachine'.Encrypt insertionScan ['A']).1 = ['I'] :=
  ⟨by decide, by decide, by decide, by decide, by decide, by decide, rfl, rfl, by decide,
    by decide, by decide⟩

/-- C17, amended. Two machines built by `loadSettingsFromBytes` from configurations that
differ only in rotor positions, all positions between `-2^63 + 27` and `2^63 - 25` and
corresponding positions congruent modulo 26, return the same cipher text for every message,
whatever the scan orders; the stored offset is the position minus one, not reduced. -/
theorem congruent_positions_same_ciphertext (s s' : setting) (a b : MachineState)
    (scan scan' : ScanOrder) (message : List Char)
    (hnum : s.Rotors0.Number = s'.Rotors0.Number ∧ s.Rotors1.Number = s'.Rotors1.Number ∧
      s.Rotors2.Number = s'.Rotors2.Number)
    (hrefl : s.Reflector = s'.Reflector) (hplugs : s.Plugs = s'.Plugs)
    (hcong : s.Rotors0.Position % 26 = s'.Rotors0.Position % 26 ∧
      s.Rotors1.Position % 26 = s'.Rotors1.Position % 26 ∧
      s.Rotors2.Position % 26 = s'.Rotors2.Position % 26)
    (hsafe : PositionSafe s.Rotors0.Position ∧ PositionSafe s.Rotors1.Position ∧
      PositionSafe s.Rotors2.Position)
    (hsafe' : PositionSafe s'.Rotors0.Position ∧ PositionSafe s'.Rotors1.Position ∧
      PositionSafe s'.Rotors2.Position)
    (ha : loadSettingsFromBytes s = .ok a) (hb : loadSettingsFromBytes s' = .ok b)
    (hscan : scan.Legit) (hscan' : scan'.Legit) :
    (a.Encrypt scan message).1 = (b.Encrypt scan' message).1 ∧
      a.Rotors0.Position = s.Rotors0.Position - 1 ∧
      a.Rotors1.Position = s.Rotors1.Position - 1 ∧
      a.Rotors2.Position = s.Rotors2.Position - 1 := by
  obtain ⟨a0, a1, a2, ar, ap⟩ := loadSettingsFromBytes_ok ha
  obtain ⟨b0, b1, b2, br, bp⟩ := loadSettingsFromBytes_ok hb
  obtain ⟨pa0, sa0⟩ := loadRotor_offset_safe hsafe.1
  obtain ⟨pa1, sa1⟩ := loadRotor_offset_safe hsafe.2.1
  obtain ⟨pa2, sa2⟩ := loadRotor_offset_safe hsafe.2.2
  obtain ⟨pb0, sb0⟩ := loadRotor_offset_safe hsafe'.1
  obtain ⟨pb1, sb1⟩ := loadRotor_offset_safe hsafe'.2.1
  obtain ⟨pb2, sb2⟩ := loadRotor_offset_safe hsafe'.2.2
  have hpl : a.Plugs = b.Plugs := by
    rw [hplugs, bp] at ap
    exact (Except.ok.inj ap).symm
  have hcg : Congruent a b :=
    { same := by
        rw [SameButPositions, a0, a1, a2, b0, b1, b2, ar, br, hrefl]
        exact ⟨loadRotor_same hnum.1, loadRotor_same hnum.2.1, loadRotor_same hnum.2.2, rfl,
          hpl⟩
      cong0 := by rw [a0, b0, pa0, pb0]; omega
      cong1 := by rw [a1, b1, pa1, pb1]; omega
      cong2 := by rw [a2, b2, pa2, pb2]; omega
      safe0 := by rw [a0, b0]; exact ⟨sa0, sb0⟩
      safe1 := by rw [a1, b1]; exact ⟨sa1, sb1⟩
      safe2 := by rw [a2, b2]; exact ⟨sa2, sb2⟩
      wiring0 := by rw [a0]; exact loadRotor_wiring _
      wiring1 := by rw [a1]; exact loadRotor_wiring _
      wiring2 := by rw [a2]; exact loadRotor_wiring _
      reflector := by rw [ar]; exact reflector_wiring _ }
  refine ⟨Congruent.Encrypt_congr message scan scan' a b hcg hscan hscan', ?_, ?_, ?_⟩
  · rw [a0, pa0]
  · rw [a1, pa1]
  · rw [a2, pa2]

theorem congruent_positions_same_ciphertext_witness :
    (wrappedMachine.Encrypt insertionScan "HELLOWORLD".toList).1 =
        (wrappedMachine'.Encrypt insertionScan "HELLOWORLD".toList).1 ∧
      wrappedMachine.Rotors0.Position = 0 - 1 ∧
      wrappedMachine.Rotors1.Position = 27 - 1 ∧
      wrappedMachine.Rotors2.Position = 1 - 1 :=
  congruent_positions_same_ciphertext wrappedSetting wrappedSetting' wrappedMachine
    wrappedMachine' insertionScan insertionScan "HELLOWORLD".toList (by decide) (by decide)
    (by decide) (by decide) (by decide) (by decide) rfl rfl insertionScan_legit
    insertionScan_legit

end Enigma
